import Mathlib

/-!
Verification of the laid-by-lines distributed greedy set-cover program.

The definitions below are a shallow embedding of the C sources under
src/. Bit-packed observation rows are lists of 64-bit words modelled as
natural numbers, the implicit disjoint matrix is traversed through the
same nested class/index loops as the C code, and the cover engine is a
functional transcription of the main loop of laid_by_lines.c. Helpers
that the repository only declares but does not define under src/
-- utils/bit.h, utils/block.h, get_column, calculate_class_offsets --
are modelled from the spec and say so in their doc comments.

Machine integers are modelled as Nat. Where unsigned overflow can
matter -- the uint64 accumulator of get_dm_n_lines and the uint64
subtraction of calculate_attribute_totals_sub -- reduction modulo 2 ^ 64
is written out explicitly.
-/

/-! ## Word-level bit primitives (utils/bit.h) -/

/-- The C macro `BIT_CHECK(word, bit)` as a 0 or 1 value: bit `b` of the
64-bit word `x`, counted from the least significant bit. -/
def bitCheck (x b : Nat) : Nat := if x.testBit b then 1 else 0

/-- Modelled from the spec: `get_bits(word, at, n)` of the missing
`utils/bit.h` returns the `n`-bit field of `word` whose least
significant bit sits `pos` bits above the least significant bit of the
word. Every call site under src/ -- `get_class`, `has_same_attributes`,
`set_jnsq_bits` -- reads the offset LSB-based, so that is the modelled
convention. -/
def get_bits (w pos n : Nat) : Nat := (w >>> pos) &&& (2 ^ n - 1)

/-- Modelled from the spec: `set_bits(word, value, at, n)` writes the
low `n` bits of `value` into the field of `word` whose least significant
bit sits `pos` bits above the least significant bit of the word, leaving
all other bits of the 64-bit word unchanged. -/
def set_bits (w v pos n : Nat) : Nat :=
  (w &&& ((2 ^ 64 - 1) ^^^ ((2 ^ n - 1) <<< pos))) ||| ((v &&& (2 ^ n - 1)) <<< pos)

/-- Modelled from the spec: `invert_n_bits(bits, n)` of the missing
`utils/bit.h` inverts the order of the low `n` bits of `bits` -- bit `j`
of the input becomes bit `n - 1 - j` of the result -- and clears every
higher bit, the usual loop `res = res << 1 | bits & 1; bits >>= 1`
repeated `n` times. -/
def invert_n_bits (x n : Nat) : Nat :=
  (List.range n).foldl (fun res i => res <<< 1 ||| (x >>> i) &&& 1) 0

/-! ## Row comparison (dataset.c, compare_lines_extra) -/

/-- Inner loop of `compare_lines_extra`: compare words `i, i+1, ...` of
the two rows, `fuel` words remaining, returning on the first word that
differs. Out-of-range words read as 0. -/
def clxGo (a b : List Nat) (i fuel : Nat) : Int :=
  match fuel with
  | 0 => 0
  | fuel + 1 =>
    if a.getD i 0 > b.getD i 0 then 1
    else if a.getD i 0 < b.getD i 0 then -1
    else clxGo a b (i + 1) fuel

/-- `compare_lines_extra(a, b, &n_words)` of dataset.c: lexicographic
comparison of the first `n` words of the two rows, returning 1, -1 or 0. -/
def compare_lines_extra (a b : List Nat) (n : Nat) : Int := clxGo a b 0 n

theorem clxGo_succ (a b : List Nat) (i fuel : Nat) :
    clxGo a b i (fuel + 1) =
      if a.getD i 0 > b.getD i 0 then 1
      else if a.getD i 0 < b.getD i 0 then -1
      else clxGo a b (i + 1) fuel := rfl

theorem clxGo_swap (a b : List Nat) (fuel : Nat) :
    ∀ i, clxGo b a i fuel = -clxGo a b i fuel := by
  induction fuel with
  | zero => intro i; simp [clxGo]
  | succ fuel ih =>
    intro i
    rw [clxGo_succ b a, clxGo_succ a b]
    split_ifs <;> first | omega | exact ih (i + 1)

theorem clxGo_eq_zero_iff (a b : List Nat) (fuel : Nat) :
    ∀ i, clxGo a b i fuel = 0 ↔ ∀ j, i ≤ j → j < i + fuel → a.getD j 0 = b.getD j 0 := by
  induction fuel with
  | zero =>
    intro i
    constructor
    · intro _ j h1 h2
      omega
    · intro _
      rfl
  | succ fuel ih =>
    intro i
    rw [clxGo_succ]
    split_ifs with h1 h2
    · constructor
      · intro hc; simp at hc
      · intro hall; exact absurd (hall i (le_refl i) (by omega)) (by omega)
    · constructor
      · intro hc; simp at hc
      · intro hall; exact absurd (hall i (le_refl i) (by omega)) (by omega)
    · have heq : a.getD i 0 = b.getD i 0 := by omega
      rw [ih (i + 1)]
      constructor
      · intro hall j hj1 hj2
        rcases Nat.eq_or_lt_of_le hj1 with rfl | hj1
        · exact heq
        · exact hall j hj1 (by omega)
      · intro hall j hj1 hj2
        exact hall j (by omega) (by omega)

theorem clxGo_trans (a b c : List Nat) (fuel : Nat) :
    ∀ i, clxGo a b i fuel ≤ 0 → clxGo b c i fuel ≤ 0 →
      clxGo a c i fuel ≤ 0 ∧
        ((clxGo a b i fuel < 0 ∨ clxGo b c i fuel < 0) → clxGo a c i fuel < 0) := by
  induction fuel with
  | zero => intro i _ _; simp [clxGo]
  | succ fuel ih =>
    intro i hab hbc
    rw [clxGo_succ a b] at hab
    rw [clxGo_succ b c] at hbc
    rw [clxGo_succ a b, clxGo_succ b c, clxGo_succ a c]
    split_ifs at hab hbc ⊢ <;> first | omega | exact ih (i + 1) hab hbc

theorem compare_lines_extra_swap (a b : List Nat) (n : Nat) :
    compare_lines_extra b a n = -compare_lines_extra a b n :=
  clxGo_swap a b n 0

theorem compare_lines_extra_trans_le (a b c : List Nat) (n : Nat)
    (hab : compare_lines_extra a b n ≤ 0) (hbc : compare_lines_extra b c n ≤ 0) :
    compare_lines_extra a c n ≤ 0 :=
  (clxGo_trans a b c n 0 hab hbc).1

theorem compare_lines_extra_trans_lt (a b c : List Nat) (n : Nat)
    (hab : compare_lines_extra a b n < 0) (hbc : compare_lines_extra b c n < 0) :
    compare_lines_extra a c n < 0 :=
  (clxGo_trans a b c n 0 (le_of_lt hab) (le_of_lt hbc)).2 (Or.inl hab)

/-! ## Duplicate removal (dataset.c, remove_duplicates) -/

/-- Two rows count as different when `compare_lines_extra` over the
first `n` words is nonzero. -/
def linesDiffer (n : Nat) (a b : List Nat) : Prop := compare_lines_extra a b n ≠ 0

instance (n : Nat) : DecidableRel (linesDiffer n) := fun a b =>
  inferInstanceAs (Decidable (compare_lines_extra a b n ≠ 0))

/-- Walk of `remove_duplicates`: `prev` is the most recently kept row
and each subsequent row is kept exactly when it compares nonzero against
it, mirroring the advance of the `last` write pointer. -/
def rdGo (n : Nat) (prev : List Nat) : List (List Nat) → List (List Nat)
  | [] => []
  | r :: rs =>
    if compare_lines_extra r prev n ≠ 0 then r :: rdGo n r rs else rdGo n prev rs

/-- `remove_duplicates(dataset)` of dataset.c on a dataset whose rows
are `n` words long: returns the compacted row list together with the
number of removed rows (the C function keeps the compacted rows in place,
shrinks `n_observations` to their number and returns the difference). -/
def remove_duplicates (n : Nat) : List (List Nat) → List (List Nat) × Nat
  | [] => ([], 0)
  | r :: rs =>
    let kept := r :: rdGo n r rs
    (kept, (r :: rs).length - kept.length)

theorem rdGo_eq_destutter (n : Nat) (l : List (List Nat)) :
    ∀ prev, List.destutter' (linesDiffer n) prev l = prev :: rdGo n prev l := by
  induction l with
  | nil => intro prev; simp [rdGo, List.destutter']
  | cons r rs ih =>
    intro prev
    have hswap := compare_lines_extra_swap r prev n
    by_cases h : compare_lines_extra r prev n = 0
    · have h0 : compare_lines_extra prev r n = 0 := by omega
      have h2 : ¬ linesDiffer n prev r := fun hc => hc h0
      rw [List.destutter'_cons, if_neg h2, rdGo, if_neg (fun hc => hc h), ih prev]
    · have h2 : linesDiffer n prev r := by
        intro hc
        rw [compare_lines_extra_swap prev r n] at h
        exact h (by omega)
      rw [List.destutter'_cons, if_pos h2, rdGo, if_pos h, ih r]

theorem remove_duplicates_eq_destutter (n : Nat) (rows : List (List Nat)) :
    (remove_duplicates n rows).1 = List.destutter (linesDiffer n) rows := by
  cases rows with
  | nil => rfl
  | cons r rs =>
    rw [List.destutter_cons', rdGo_eq_destutter n rs r]
    rfl

/-- Helper: a chain under two relations is a chain under any relation
implied by their conjunction. -/
theorem chain_imp_two {α : Type} {R S T : α → α → Prop} :
    ∀ l : List α, l.Chain' R → l.Chain' S → (∀ a b, R a b → S a b → T a b) → l.Chain' T := by
  intro l
  induction l with
  | nil => intro _ _ _; exact List.chain'_nil
  | cons a l ih =>
    intro hR hS himp
    cases l with
    | nil => exact List.chain'_singleton a
    | cons b l =>
      rw [List.chain'_cons] at hR hS ⊢
      exact ⟨himp a b hR.1 hS.1, ih hR.2 hS.2 himp⟩

/-- Helper: a chain under a transitive relation is pairwise related. -/
theorem chain_pairwise_of_trans {α : Type} {R : α → α → Prop}
    (htrans : ∀ a b c, R a b → R b c → R a c) (l : List α) (h : l.Chain' R) :
    l.Pairwise R :=
  (@List.chain'_iff_pairwise _ R ⟨fun _ _ _ => htrans _ _ _⟩ l).mp h

/-- CLAIM C6. Deduplication: on rows sorted by the lexicographic word
comparison `compare_lines_extra`, `remove_duplicates` keeps exactly the
first row of every run of equal rows (the destutter of the row list
under the nonzero-comparison relation), returns the number of removed
rows as old length minus new length, and afterwards no two kept rows
compare equal over their full `n`-word sequence. -/
theorem claim_C6_remove_duplicates (n : Nat) (rows : List (List Nat))
    (hsort : rows.Chain' (fun a b => compare_lines_extra a b n ≤ 0)) :
    (remove_duplicates n rows).1 = List.destutter (linesDiffer n) rows ∧
    (remove_duplicates n rows).2 =
      rows.length - (List.destutter (linesDiffer n) rows).length ∧
    (remove_duplicates n rows).1.Pairwise (linesDiffer n) := by
  have hkept := remove_duplicates_eq_destutter n rows
  refine ⟨hkept, ?_, ?_⟩
  · rw [← hkept]
    cases rows with
    | nil => rfl
    | cons r rs => rfl
  · rw [hkept]
    have hsub : List.Sublist (List.destutter (linesDiffer n) rows) rows :=
      List.destutter_sublist _ rows
    have hchainNe : (List.destutter (linesDiffer n) rows).Chain' (linesDiffer n) :=
      List.destutter_is_chain' _ rows
    have hpairLe : rows.Pairwise (fun a b => compare_lines_extra a b n ≤ 0) :=
      chain_pairwise_of_trans (fun a b c => compare_lines_extra_trans_le a b c n) rows hsort
    have hchainLe : (List.destutter (linesDiffer n) rows).Chain'
        (fun a b => compare_lines_extra a b n ≤ 0) :=
      (List.Pairwise.sublist hsub hpairLe).chain'
    have hchainLt : (List.destutter (linesDiffer n) rows).Chain'
        (fun a b => compare_lines_extra a b n < 0) := by
      refine chain_imp_two _ hchainNe hchainLe ?_
      intro a b h1 h2
      rcases lt_or_eq_of_le h2 with h | h
      · exact h
      · exact absurd h h1
    have hpairLt : (List.destutter (linesDiffer n) rows).Pairwise
        (fun a b => compare_lines_extra a b n < 0) :=
      chain_pairwise_of_trans (fun a b c => compare_lines_extra_trans_lt a b c n) _ hchainLt
    exact hpairLt.imp (fun h => by rw [linesDiffer]; omega)

/-- Witness for C6 at a concrete sorted three-row dataset with one
duplicate run. -/
theorem claim_C6_remove_duplicates_witness :
    (remove_duplicates 2 [[0, 0], [0, 0], [0, 1]]).1 =
        List.destutter (linesDiffer 2) [[0, 0], [0, 0], [0, 1]] ∧
    (remove_duplicates 2 [[0, 0], [0, 0], [0, 1]]).2 =
      ([[0, 0], [0, 0], [0, 1]] : List (List Nat)).length -
        (List.destutter (linesDiffer 2) [[0, 0], [0, 0], [0, 1]]).length ∧
    (remove_duplicates 2 [[0, 0], [0, 0], [0, 1]]).1.Pairwise (linesDiffer 2) :=
  claim_C6_remove_duplicates 2 [[0, 0], [0, 0], [0, 1]]
    (List.chain'_cons.mpr ⟨by decide, List.chain'_cons.mpr ⟨by decide, List.chain'_singleton _⟩⟩)

/-! ## Class indexing (dataset.c, fill_class_arrays) -/

/-- Return kind `oknok_t` of the C sources. -/
inductive Oknok where
  | ok : Oknok
  | nok : Oknok
deriving DecidableEq

/-- One step of `fill_class_arrays`: read the class label from the last
word of the row and increment that counter. The C code indexes
`classes[lc]` without any range check; an out-of-range label writes
outside the allocated array (undefined behavior in C, modelled here as
`List.set`, which leaves the counters unchanged when the index is out of
range). -/
def fillClassStep (n_words : Nat) (counts : List Nat) (line : List Nat) : List Nat :=
  let lc := line.getD (n_words - 1) 0
  counts.set lc (counts.getD lc 0 + 1)

/-- `fill_class_arrays(dataset)` of dataset.c: walk all rows once,
counting the observations of each class into an array of `n_classes`
counters that starts at zero; the function returns `OK` on every
execution path -- it contains no validation of the class label and no
`return NOK` statement. The first-observation pointers are not modelled;
they do not affect the return value. -/
def fill_class_arrays (n_words n_classes : Nat) (rows : List (List Nat)) :
    List Nat × Oknok :=
  (rows.foldl (fillClassStep n_words) (List.replicate n_classes 0), Oknok.ok)

/-- CLAIM C9 (code_bug evidence). On a two-class dataset whose second
row carries the out-of-range class label 2, `fill_class_arrays` still
returns `OK`, and the out-of-range row is silently dropped from the
counters (in C the increment lands outside the allocated array). The
claim and the spec say class indexing fails with a non-OK result for an
out-of-range label; the code has no such path. -/
theorem claim_C9_fill_class_arrays :
    fill_class_arrays 2 2 [[0, 0], [1, 2]] = ([1, 0], Oknok.ok) := by
  decide

/-! ## Pair count (disjoint_matrix.c, get_dm_n_lines) -/

/-- `get_dm_n_lines(dataset)` of disjoint_matrix.c: the double loop
`for class_a < n_classes - 1, for class_b in (class_a, n_classes)`
accumulating `classes[class_a].n_observations *
classes[class_b].n_observations` into a uint64, with the modular
reduction of uint64 multiplication and addition written out. -/
def get_dm_n_lines (n_classes : Nat) (count : Nat → Nat) : Nat :=
  (List.range (n_classes - 1)).foldl
    (fun n a =>
      (List.range' (a + 1) (n_classes - (a + 1))).foldl
        (fun n b => (n + count a * count b % 2 ^ 64) % 2 ^ 64) n)
    0

/-- The number of rows of the logical disjoint matrix as the spec
states it: the sum over all unordered class pairs `a < b` of
`count a * count b`. -/
def specPairSum (n_classes : Nat) (count : Nat → Nat) : Nat :=
  ∑ a ∈ Finset.range n_classes, ∑ b ∈ Finset.Ico (a + 1) n_classes, count a * count b

theorem foldl_mod_add (f : Nat → Nat) (l : List Nat) :
    ∀ acc, acc + (l.map f).sum < 2 ^ 64 →
      l.foldl (fun n x => (n + f x % 2 ^ 64) % 2 ^ 64) acc = acc + (l.map f).sum := by
  induction l with
  | nil => intro acc _; simp
  | cons x l ih =>
    intro acc hb
    simp only [List.map_cons, List.sum_cons] at hb
    have hx : f x % 2 ^ 64 = f x := Nat.mod_eq_of_lt (by omega)
    have hstep : (acc + f x % 2 ^ 64) % 2 ^ 64 = acc + f x := by
      rw [hx]; exact Nat.mod_eq_of_lt (by omega)
    rw [List.foldl_cons, hstep, ih (acc + f x) (by simp; omega)]
    simp only [List.map_cons, List.sum_cons]
    omega

theorem list_range_map_sum (f : Nat → Nat) (n : Nat) :
    ((List.range n).map f).sum = ∑ i ∈ Finset.range n, f i := by
  induction n with
  | zero => simp
  | succ n ih => rw [List.range_succ, List.map_append, List.sum_append,
      Finset.sum_range_succ, ih]; simp

theorem list_range'_map_sum (f : Nat → Nat) (s : Nat) :
    ∀ n, ((List.range' s n).map f).sum = ∑ i ∈ Finset.Ico s (s + n), f i := by
  have h : ∀ n s, ((List.range' s n).map f).sum = ∑ i ∈ Finset.Ico s (s + n), f i := by
    intro n
    induction n with
    | zero => intro s; simp
    | succ n ih =>
      intro s
      rw [List.range'_succ, List.map_cons, List.sum_cons, ih (s + 1)]
      rw [Finset.sum_eq_sum_Ico_succ_bot (a := s) (b := s + (n + 1)) (by omega)]
      have h1 : s + 1 + n = s + (n + 1) := by omega
      rw [h1]
  intro n
  exact h n s

/-- CLAIM C5. Pair count: when the true pair total fits in a uint64,
`get_dm_n_lines` returns exactly the sum over all unordered class pairs
`a < b` of `count a * count b`, the row count of the logical disjoint
matrix. -/
theorem claim_C5_get_dm_n_lines (n_classes : Nat) (count : Nat → Nat)
    (h2 : 2 ≤ n_classes) (hbound : specPairSum n_classes count < 2 ^ 64) :
    get_dm_n_lines n_classes count = specPairSum n_classes count := by
  have hinner : ∀ a, ((List.range' (a + 1) (n_classes - (a + 1))).map
      (fun b => count a * count b)).sum = ∑ b ∈ Finset.Ico (a + 1) n_classes,
        count a * count b := by
    intro a
    rw [list_range'_map_sum]
    by_cases h : a + 1 ≤ n_classes
    · have : a + 1 + (n_classes - (a + 1)) = n_classes := by omega
      rw [this]
    · have h1 : n_classes - (a + 1) = 0 := by omega
      have h2 : Finset.Ico (a + 1) n_classes = ∅ := by
        apply Finset.Ico_eq_empty
        omega
      rw [h1, h2]
      simp
  have houter : ∀ (l : List Nat) (acc : Nat),
      acc + (l.map (fun a => ∑ b ∈ Finset.Ico (a + 1) n_classes, count a * count b)).sum
        < 2 ^ 64 →
      l.foldl (fun n a => (List.range' (a + 1) (n_classes - (a + 1))).foldl
          (fun n b => (n + count a * count b % 2 ^ 64) % 2 ^ 64) n) acc =
        acc + (l.map (fun a => ∑ b ∈ Finset.Ico (a + 1) n_classes,
          count a * count b)).sum := by
    intro l
    induction l with
    | nil => intro acc _; simp
    | cons a l ih =>
      intro acc hb
      simp only [List.map_cons, List.sum_cons] at hb ⊢
      rw [List.foldl_cons]
      have hstep := foldl_mod_add (fun b => count a * count b)
        (List.range' (a + 1) (n_classes - (a + 1))) acc (by rw [hinner a]; omega)
      rw [hstep, hinner a, ih (acc + ∑ b ∈ Finset.Ico (a + 1) n_classes,
        count a * count b) (by omega)]
      omega
  have hsum : specPairSum n_classes count =
      ((List.range (n_classes - 1)).map
        (fun a => ∑ b ∈ Finset.Ico (a + 1) n_classes, count a * count b)).sum := by
    rw [list_range_map_sum, specPairSum]
    rcases Nat.exists_eq_add_of_le h2 with ⟨k, hk⟩
    subst hk
    have : 2 + k = (1 + k) + 1 := by omega
    rw [this, Finset.sum_range_succ]
    have hlast : Finset.Ico ((1 + k) + 1) ((1 + k) + 1) = ∅ := by simp
    rw [hlast]
    simp
  rw [get_dm_n_lines, houter (List.range (n_classes - 1)) 0 (by rw [← hsum]; omega)]
  omega

/-- Witness for C5 at three classes with counts 1, 2, 3. -/
theorem claim_C5_get_dm_n_lines_witness :
    2 ≤ 3 ∧ specPairSum 3 (fun c => [1, 2, 3].getD c 0) < 2 ^ 64 ∧
    get_dm_n_lines 3 (fun c => [1, 2, 3].getD c 0) =
      specPairSum 3 (fun c => [1, 2, 3].getD c 0) :=
  ⟨by decide, by decide, claim_C5_get_dm_n_lines 3 _ (by decide) (by decide)⟩

/-! ## Best-attribute selection (set_cover.c, get_best_attribute_index) -/

/-- Loop of `get_best_attribute_index`: scan indices `i, i+1, ...` with
`fuel` indices remaining, carrying the running pair
`(max_total, max_attribute)`; the running maximum is updated only on a
strictly greater total, so the first index attaining the final maximum
wins. -/
def gbaiGo (totals : Nat → Nat) (i fuel : Nat) (max_total : Nat) (max_attribute : Int) :
    Nat × Int :=
  match fuel with
  | 0 => (max_total, max_attribute)
  | fuel + 1 =>
    if totals i > max_total then gbaiGo totals (i + 1) fuel (totals i) i
    else gbaiGo totals (i + 1) fuel max_total max_attribute

/-- `get_best_attribute_index(totals, n_attributes)` of set_cover.c:
starts from `max_total = 0`, `max_attribute = -1` and scans all
`n_attributes` totals. -/
def get_best_attribute_index (totals : Nat → Nat) (n_attributes : Nat) : Int :=
  (gbaiGo totals 0 n_attributes 0 (-1)).2

theorem gbaiGo_const (totals : Nat → Nat) (fuel : Nat) :
    ∀ i mt ma, (∀ j, i ≤ j → j < i + fuel → totals j ≤ mt) →
      gbaiGo totals i fuel mt ma = (mt, ma) := by
  induction fuel with
  | zero => intro i mt ma _; rfl
  | succ fuel ih =>
    intro i mt ma hall
    rw [gbaiGo]
    rw [if_neg (by have := hall i (le_refl i) (by omega); omega)]
    exact ih (i + 1) mt ma (fun j h1 h2 => hall j (by omega) (by omega))

theorem gbaiGo_max (totals : Nat → Nat) (fuel : Nat) :
    ∀ i mt ma, (∃ j, i ≤ j ∧ j < i + fuel ∧ mt < totals j) →
      ∃ j0, i ≤ j0 ∧ j0 < i + fuel ∧
        gbaiGo totals i fuel mt ma = (totals j0, (j0 : Int)) ∧
        mt < totals j0 ∧
        (∀ j, i ≤ j → j < i + fuel → totals j ≤ totals j0) ∧
        (∀ j, i ≤ j → j < j0 → totals j < totals j0) := by
  induction fuel with
  | zero =>
    intro i mt ma h
    rcases h with ⟨j, h1, h2, _⟩
    omega
  | succ fuel ih =>
    intro i mt ma hex
    rw [gbaiGo]
    by_cases hi : totals i > mt
    · rw [if_pos hi]
      by_cases hrest : ∃ j, i + 1 ≤ j ∧ j < i + 1 + fuel ∧ totals i < totals j
      · rcases ih (i + 1) (totals i) (i : Int) hrest with
          ⟨j0, hj1, hj2, heq, hgt, hle, hlt⟩
        refine ⟨j0, by omega, by omega, heq, by omega, ?_, ?_⟩
        · intro j h1 h2
          rcases Nat.eq_or_lt_of_le h1 with rfl | h1
          · omega
          · exact hle j (by omega) (by omega)
        · intro j h1 h2
          rcases Nat.eq_or_lt_of_le h1 with rfl | h1
          · omega
          · exact hlt j (by omega) h2
      · push_neg at hrest
        rw [gbaiGo_const totals fuel (i + 1) (totals i) (i : Int)
          (fun j h1 h2 => hrest j h1 (by omega))]
        refine ⟨i, le_refl i, by omega, rfl, hi, ?_, ?_⟩
        · intro j h1 h2
          rcases Nat.eq_or_lt_of_le h1 with rfl | h1
          · exact le_refl _
          · exact hrest j h1 (by omega)
        · intro j h1 h2
          omega
    · rw [if_neg hi]
      have hex2 : ∃ j, i + 1 ≤ j ∧ j < i + 1 + fuel ∧ mt < totals j := by
        rcases hex with ⟨j, h1, h2, h3⟩
        rcases Nat.eq_or_lt_of_le h1 with rfl | h1
        · omega
        · exact ⟨j, by omega, by omega, h3⟩
      rcases ih (i + 1) mt ma hex2 with ⟨j0, hj1, hj2, heq, hgt, hle, hlt⟩
      refine ⟨j0, by omega, by omega, heq, hgt, ?_, ?_⟩
      · intro j h1 h2
        rcases Nat.eq_or_lt_of_le h1 with rfl | h1
        · omega
        · exact hle j (by omega) (by omega)
      · intro j h1 h2
        rcases Nat.eq_or_lt_of_le h1 with rfl | h1
        · omega
        · exact hlt j (by omega) h2

/-- Root decision of one loop iteration of main (laid_by_lines.c,
lines 503 to 535): select the best attribute from the reduced global
totals, subtract its total from the global uncovered counter, replace
the selection by the sentinel -1 when the counter reaches zero, and
broadcast the result; every process leaves the loop exactly when the
broadcast value is negative. When the selection itself is already -1 the
broadcast value is -1 no matter what the counter update does, which is
what the model returns directly. -/
def rootBroadcast (totals : Nat → Nat) (n_attributes g_uncovered : Nat) : Int :=
  let best := get_best_attribute_index totals n_attributes
  if best = -1 then -1
  else if g_uncovered - totals best.toNat = 0 then -1
  else best

/-- CLAIM C4. Best-attribute selection: `get_best_attribute_index`
returns -1 when every totals entry is zero; when some entry is positive
it returns the lowest index attaining the maximum total (first-wins
tie-break); the returned index is always -1 or a valid index; and the
root broadcasts the sentinel -1, terminating every process, exactly when
the returned index is -1 or the updated global uncovered count reaches
zero. -/
theorem claim_C4_get_best_attribute_index (totals : Nat → Nat) (n : Nat) :
    ((∀ i, i < n → totals i = 0) → get_best_attribute_index totals n = -1) ∧
    ((∃ i, i < n ∧ 0 < totals i) →
      ∃ j, j < n ∧ get_best_attribute_index totals n = (j : Int) ∧ 0 < totals j ∧
        (∀ i, i < n → totals i ≤ totals j) ∧
        (∀ i, i < j → totals i < totals j)) ∧
    (get_best_attribute_index totals n = -1 ∨
      ∃ j, j < n ∧ get_best_attribute_index totals n = (j : Int)) ∧
    (∀ g, rootBroadcast totals n g = -1 ↔
      (get_best_attribute_index totals n = -1 ∨
        g - totals (get_best_attribute_index totals n).toNat = 0)) := by
  have hchar : (∀ i, i < n → totals i = 0) ∨
      (∃ j, j < n ∧ get_best_attribute_index totals n = (j : Int) ∧ 0 < totals j ∧
        (∀ i, i < n → totals i ≤ totals j) ∧
        (∀ i, i < j → totals i < totals j)) := by
    by_cases hex : ∃ i, i < n ∧ 0 < totals i
    · rcases hex with ⟨i, h1, h2⟩
      rcases gbaiGo_max totals n 0 0 (-1) ⟨i, by omega, by omega, h2⟩ with
        ⟨j0, hj1, hj2, heq, hgt, hle, hlt⟩
      refine Or.inr ⟨j0, by omega, ?_, hgt, fun i hi => hle i (by omega) (by omega),
        fun i hi => hlt i (by omega) hi⟩
      rw [get_best_attribute_index, heq]
    · push_neg at hex
      exact Or.inl (fun i hi => by have := hex i hi; omega)
  have hzero : (∀ i, i < n → totals i = 0) → get_best_attribute_index totals n = -1 := by
    intro hall
    rw [get_best_attribute_index,
      gbaiGo_const totals n 0 0 (-1) (fun j h1 h2 => by rw [hall j (by omega)])]
  refine ⟨hzero, ?_, ?_, ?_⟩
  · intro hex
    rcases hchar with hall | hgood
    · rcases hex with ⟨i, h1, h2⟩
      rw [hall i h1] at h2
      omega
    · exact hgood
  · rcases hchar with hall | hgood
    · exact Or.inl (hzero hall)
    · rcases hgood with ⟨j, h1, h2, _⟩
      exact Or.inr ⟨j, h1, h2⟩
  · intro g
    rw [rootBroadcast]
    by_cases hb : get_best_attribute_index totals n = -1
    · rw [if_pos hb]
      exact ⟨fun _ => Or.inl hb, fun _ => rfl⟩
    · rw [if_neg hb]
      by_cases hg : g - totals (get_best_attribute_index totals n).toNat = 0
      · rw [if_pos hg]
        exact ⟨fun _ => Or.inr hg, fun _ => rfl⟩
      · rw [if_neg hg]
        constructor
        · intro hc
          rcases hchar with hall | ⟨j, _, heq, _⟩
          · exact absurd (hzero hall) hb
          · rw [heq] at hc
            omega
        · intro hc
          rcases hc with hc | hc
          · exact absurd hc hb
          · exact absurd hc hg

/-- Witness for C4 at totals 2, 3, 3, 0: the maximum 3 is attained
first at index 1. -/
theorem claim_C4_get_best_attribute_index_witness :
    (∃ i : Nat, i < 4 ∧ 0 < ([2, 3, 3, 0].getD i 0)) ∧
    (∃ j : Nat, j < 4 ∧
      get_best_attribute_index (fun i => [2, 3, 3, 0].getD i 0) 4 = (j : Int) ∧
      0 < ([2, 3, 3, 0].getD j 0) ∧
      (∀ i, i < 4 → [2, 3, 3, 0].getD i 0 ≤ [2, 3, 3, 0].getD j 0) ∧
      (∀ i, i < j → [2, 3, 3, 0].getD i 0 < [2, 3, 3, 0].getD j 0)) :=
  ⟨⟨1, by decide, by decide⟩,
    (claim_C4_get_best_attribute_index (fun i => [2, 3, 3, 0].getD i 0) 4).2.1
      ⟨1, by decide, by decide⟩⟩

/-! ## Bit-level helper lemmas for the JNSQ layer -/

theorem set_bits_testBit_out (w v pos n b : Nat) (hb : b < 64)
    (h : b < pos ∨ pos + n ≤ b) :
    (set_bits w v pos n).testBit b = w.testBit b := by
  rw [set_bits]
  simp only [Nat.testBit_or, Nat.testBit_and, Nat.testBit_xor, Nat.testBit_shiftLeft,
    Nat.testBit_two_pow_sub_one]
  rcases h with h | h
  · have h1 : ¬ pos ≤ b := by omega
    simp [h1, hb]
  · have h1 : decide (pos ≤ b) = true := by simp; omega
    have h2 : decide (b - pos < n) = false := by simp; omega
    simp [h1, h2, hb]

theorem get_bits_testBit (w pos n t : Nat) :
    (get_bits w pos n).testBit t = (decide (t < n) && w.testBit (pos + t)) := by
  rw [get_bits]
  simp only [Nat.testBit_and, Nat.testBit_shiftRight, Nat.testBit_two_pow_sub_one]
  rw [Nat.add_comm pos t]
  exact Bool.and_comm _ _

theorem get_bits_congr (x y pos n : Nat)
    (h : ∀ t, t < n → x.testBit (pos + t) = y.testBit (pos + t)) :
    get_bits x pos n = get_bits y pos n := by
  apply Nat.eq_of_testBit_eq
  intro t
  rw [get_bits_testBit, get_bits_testBit]
  by_cases ht : t < n
  · rw [h t ht]
  · simp [ht]

theorem get_bits_eq_zero_iff (w pos n : Nat) :
    get_bits w pos n = 0 ↔ ∀ t, t < n → w.testBit (pos + t) = false := by
  constructor
  · intro h t ht
    have := congrArg (fun z => z.testBit t) h
    simp only [Nat.zero_testBit] at this
    rw [get_bits_testBit] at this
    simpa [ht] using this
  · intro h
    apply Nat.eq_of_testBit_eq
    intro t
    rw [get_bits_testBit, Nat.zero_testBit]
    by_cases ht : t < n
    · simp [ht, h t ht]
    · simp [ht]

theorem word_eq_of_testBit (x y : Nat) (hx : x < 2 ^ 64) (hy : y < 2 ^ 64)
    (h : ∀ b, b < 64 → x.testBit b = y.testBit b) : x = y := by
  apply Nat.eq_of_testBit_eq
  intro b
  by_cases hb : b < 64
  · exact h b hb
  · have hxb : x.testBit b = false := Nat.testBit_eq_false_of_lt
      (lt_of_lt_of_le hx (Nat.pow_le_pow_right (by omega) (by omega)))
    have hyb : y.testBit b = false := Nat.testBit_eq_false_of_lt
      (lt_of_lt_of_le hy (Nat.pow_le_pow_right (by omega) (by omega)))
    rw [hxb, hyb]

theorem getD_set_ne (l : List Nat) (j w x : Nat) (h : j ≠ w) :
    (l.set j x).getD w 0 = l.getD w 0 := by
  simp [List.getD, List.getElem?_set_ne h]

/-! ## JNSQ (jnsq.c and dataset.c has_same_attributes) -/

/-- `has_same_attributes(line_a, line_b, n_attributes)` of dataset.c:
compare the full attribute words and then the top `n_attributes mod 64`
bits of the last partial attribute word through `get_bits` of the XOR. -/
def has_same_attributes (a b : List Nat) (n_attributes : Nat) : Bool :=
  let n_words := n_attributes / 64
  let remaining := n_attributes % 64
  if (List.range n_words).all (fun w => a.getD w 0 == b.getD w 0) then
    if remaining = 0 then true
    else get_bits ((a.getD n_words 0) ^^^ (b.getD n_words 0)) (64 - remaining) remaining == 0
  else false

/-- `set_jnsq_bits(line, inconsistency, n_attributes, n_words,
n_bits_for_class)` of jnsq.c, transcribed clause by clause: when the
`n_bits_for_class` JNSQ bits do not fit in the free low bits of the last
attribute word the value is split, the first part is written (inverted
when wider than one bit) into the free bits, and the C code then shifts
the already inverted value right before writing the remainder into the
top of the next word. -/
def set_jnsq_bits (line : List Nat) (inconsistency : Nat)
    (n_attributes n_words n_bits_for_class : Nat) : List Nat :=
  let true_n_words := n_attributes / 64 + (if n_attributes % 64 ≠ 0 then 1 else 0)
  let attributes_last_word := n_attributes % 64
  let word_with_jnsq0 := if attributes_last_word = 0 then true_n_words else true_n_words - 1
  let free0 := if attributes_last_word = 0 then 64 else 64 - attributes_last_word
  if n_bits_for_class > free0 then
    let n_bits := free0
    let incA := if n_bits > 1 then invert_n_bits inconsistency n_bits else inconsistency
    let line1 :=
      line.set word_with_jnsq0 (set_bits (line.getD word_with_jnsq0 0) incA 0 n_bits)
    let inc1 := incA >>> n_bits
    let n_needed1 := n_bits_for_class - n_bits
    let wj1 := word_with_jnsq0 + 1
    let jnsq_start := 64 - n_needed1
    let incB := if n_needed1 > 1 then invert_n_bits inc1 n_needed1 else inc1
    line1.set wj1 (set_bits (line1.getD wj1 0) incB jnsq_start n_needed1)
  else
    let jnsq_start := free0 - n_bits_for_class
    let incB :=
      if n_bits_for_class > 1 then invert_n_bits inconsistency n_bits_for_class
      else inconsistency
    line.set word_with_jnsq0
      (set_bits (line.getD word_with_jnsq0 0) incB jnsq_start n_bits_for_class)

/-- Loop of `add_jnsqs`: `prev` is the previous row with its JNSQ bits
already written (the C loop advances `prev` over rows it has processed),
`inconsistency` the running JNSQ counter and `max_inconsistency` the
running maximum. -/
def addJnsqsGo (nA nW nbc : Nat) (prev : List Nat) (inconsistency max_inconsistency : Nat) :
    List (List Nat) → List (List Nat) × Nat
  | [] => ([], max_inconsistency)
  | cur :: rest =>
    let inc := if has_same_attributes cur prev nA then inconsistency + 1 else 0
    let maxInc := if inc > max_inconsistency then inc else max_inconsistency
    let cur2 := set_jnsq_bits cur inc nA nW nbc
    let r := addJnsqsGo nA nW nbc cur2 inc maxInc rest
    (cur2 :: r.1, r.2)

/-- `add_jnsqs(dataset)` of jnsq.c on a dataset with `nA` attributes,
`nW` words per row and `nbc` class bits: gives the first row JNSQ 0,
walks the remaining rows with the running inconsistency counter, and
returns the updated rows together with the maximum inconsistency. -/
def add_jnsqs (nA nW nbc : Nat) : List (List Nat) → List (List Nat) × Nat
  | [] => ([], 0)
  | first :: rest =>
    let first2 := set_jnsq_bits first 0 nA nW nbc
    let r := addJnsqsGo nA nW nbc first2 0 0 rest
    (first2 :: r.1, r.2)

/-- Caller update of main (laid_by_lines.c, lines 315 to 324): the
number of JNSQ bits derived from the maximum inconsistency; the C
computes `ceil(log2(max + 1))` in double precision, which is the exact
base-2 ceiling logarithm for every reachable maximum, and leaves 0 when
the maximum is 0. -/
def mainJnsqBits (max_inconsistency : Nat) : Nat :=
  if max_inconsistency > 0 then Nat.clog 2 (max_inconsistency + 1) else 0

/-- Attribute bit `i` of a row in the MSB-first numbering of the data
model: word `i / 64`, bit `63 - i mod 64` from the least significant
end. -/
def attrBitOf (line : List Nat) (i : Nat) : Bool :=
  (line.getD (i / 64) 0).testBit (63 - i % 64)

/-- Two rows are attribute-equal when their first `nA` attribute bits
agree, the wording of the spec. -/
def attrEqSpec (nA : Nat) (a b : List Nat) : Prop :=
  ∀ i, i < nA → attrBitOf a i = attrBitOf b i

instance (nA : Nat) (a b : List Nat) : Decidable (attrEqSpec nA a b) :=
  inferInstanceAs (Decidable (∀ i, i < nA → attrBitOf a i = attrBitOf b i))

/-- Specified JNSQ values of the rows after the first: the value is the
number of immediately preceding consecutive attribute-equal rows,
resetting to zero whenever the attribute content changes. Comparison is
against the original rows. -/
def jnsqValsGo (nA : Nat) (prev : List Nat) (v : Nat) : List (List Nat) → List Nat
  | [] => []
  | cur :: rest =>
    let v2 := if attrEqSpec nA cur prev then v + 1 else 0
    v2 :: jnsqValsGo nA cur v2 rest

/-- Specified JNSQ values of all rows: the first row gets 0. -/
def jnsqSpecValues (nA : Nat) : List (List Nat) → List Nat
  | [] => []
  | first :: rest => 0 :: jnsqValsGo nA first 0 rest

theorem getD_lt_of_all_lt (l : List Nat) (w : Nat) (hw : ∀ x ∈ l, x < 2 ^ 64) :
    l.getD w 0 < 2 ^ 64 := by
  by_cases h : w < l.length
  · rw [List.getD_eq_getElem _ _ h]
    exact hw _ (List.getElem_mem h)
  · rw [List.getD_eq_default _ _ (by omega)]
    positivity

theorem getD_set_self (l : List Nat) (j x : Nat) :
    (l.set j x).getD j 0 = if j < l.length then x else l.getD j 0 := by
  by_cases h : j < l.length
  · simp [List.getD, List.getElem?_set_self, h]
  · rw [List.set_eq_of_length_le (by omega), if_neg h]

theorem all_congr_eq (l : List Nat) (p q : Nat → Bool) (h : ∀ x ∈ l, p x = q x) :
    l.all p = l.all q := by
  induction l with
  | nil => rfl
  | cons a l ih =>
    simp only [List.all_cons, h a (by simp)]
    rw [ih (fun x hx => h x (by simp [hx]))]

/-- Words strictly below the last attribute word are never touched by
`set_jnsq_bits`. -/
theorem set_jnsq_bits_full_word (line : List Nat) (v nA nW nbc w : Nat)
    (hw : w < nA / 64) :
    (set_jnsq_bits line v nA nW nbc).getD w 0 = line.getD w 0 := by
  by_cases halw : nA % 64 = 0
  · simp only [set_jnsq_bits, if_pos halw, if_neg (show ¬ nA % 64 ≠ 0 from by omega)]
    by_cases hsplit : nbc > 64
    · rw [if_pos hsplit, getD_set_ne _ _ _ _ (by omega), getD_set_ne _ _ _ _ (by omega)]
    · rw [if_neg hsplit, getD_set_ne _ _ _ _ (by omega)]
  · simp only [set_jnsq_bits, if_neg halw, if_pos halw]
    by_cases hsplit : nbc > 64 - nA % 64
    · rw [if_pos hsplit, getD_set_ne _ _ _ _ (by omega), getD_set_ne _ _ _ _ (by omega)]
    · rw [if_neg hsplit, getD_set_ne _ _ _ _ (by omega)]

/-- High bits of the last partial attribute word, the bits that hold
attributes, are never touched by `set_jnsq_bits`. -/
theorem set_jnsq_bits_partial_word (line : List Nat) (v nA nW nbc b : Nat)
    (hnbc : nbc ≤ 64) (halw : nA % 64 ≠ 0) (hb : b < 64) (hfree : 64 - nA % 64 ≤ b) :
    ((set_jnsq_bits line v nA nW nbc).getD (nA / 64) 0).testBit b =
      (line.getD (nA / 64) 0).testBit b := by
  simp only [set_jnsq_bits, if_neg halw, if_pos halw]
  have hwj : nA / 64 + 1 - 1 = nA / 64 := by omega
  rw [hwj]
  by_cases hsplit : nbc > 64 - nA % 64
  · rw [if_pos hsplit, getD_set_ne _ _ _ _ (by omega), getD_set_self]
    by_cases hlen : nA / 64 < line.length
    · rw [if_pos hlen]
      exact set_bits_testBit_out _ _ _ _ _ hb (Or.inr (by omega))
    · rw [if_neg hlen]
  · rw [if_neg hsplit, getD_set_self]
    by_cases hlen : nA / 64 < line.length
    · rw [if_pos hlen]
      exact set_bits_testBit_out _ _ _ _ _ hb (Or.inr (by omega))
    · rw [if_neg hlen]

/-- Frame property of `set_jnsq_bits`: no attribute bit below `nA`
changes. -/
theorem set_jnsq_bits_attr_frame (line : List Nat) (v nA nW nbc i : Nat)
    (hnbc : nbc ≤ 64) (hi : i < nA) :
    attrBitOf (set_jnsq_bits line v nA nW nbc) i = attrBitOf line i := by
  rw [attrBitOf, attrBitOf]
  by_cases hw : i / 64 < nA / 64
  · rw [set_jnsq_bits_full_word line v nA nW nbc _ hw]
  · have hiw : i / 64 = nA / 64 := by omega
    have hrem : i % 64 < nA % 64 := by omega
    have halw : nA % 64 ≠ 0 := by omega
    rw [hiw]
    exact set_jnsq_bits_partial_word line v nA nW nbc _ hnbc halw (by omega) (by omega)

/-- Writing JNSQ bits into the previous row does not change what
`has_same_attributes` sees: the comparison only reads attribute bits. -/
theorem has_same_attributes_set_jnsq (cur prev : List Nat) (v nA nW nbc : Nat)
    (hnbc : nbc ≤ 64) :
    has_same_attributes cur (set_jnsq_bits prev v nA nW nbc) nA =
      has_same_attributes cur prev nA := by
  rw [has_same_attributes, has_same_attributes]
  have hall : (List.range (nA / 64)).all
      (fun w => cur.getD w 0 == (set_jnsq_bits prev v nA nW nbc).getD w 0) =
      (List.range (nA / 64)).all (fun w => cur.getD w 0 == prev.getD w 0) := by
    apply all_congr_eq
    intro w hw
    rw [set_jnsq_bits_full_word prev v nA nW nbc w (List.mem_range.mp hw)]
  rw [hall]
  by_cases hc : (List.range (nA / 64)).all (fun w => cur.getD w 0 == prev.getD w 0) = true
  · rw [if_pos hc, if_pos hc]
    by_cases hrem : nA % 64 = 0
    · rw [if_pos hrem, if_pos hrem]
    · rw [if_neg hrem, if_neg hrem]
      have hgb : get_bits (cur.getD (nA / 64) 0 ^^^
          (set_jnsq_bits prev v nA nW nbc).getD (nA / 64) 0) (64 - nA % 64) (nA % 64) =
          get_bits (cur.getD (nA / 64) 0 ^^^ prev.getD (nA / 64) 0)
            (64 - nA % 64) (nA % 64) := by
        apply get_bits_congr
        intro t ht
        rw [Nat.testBit_xor, Nat.testBit_xor,
          set_jnsq_bits_partial_word prev v nA nW nbc _ hnbc hrem (by omega) (by omega)]
      rw [hgb]
  · rw [if_neg hc, if_neg hc]

/-- `has_same_attributes` decides exactly attribute-equality of the
first `nA` bits, for rows whose words are 64-bit values. -/
theorem has_same_attributes_iff (a b : List Nat) (nA : Nat)
    (hwa : ∀ x ∈ a, x < 2 ^ 64) (hwb : ∀ x ∈ b, x < 2 ^ 64) :
    has_same_attributes a b nA = true ↔ attrEqSpec nA a b := by
  rw [has_same_attributes]
  constructor
  · intro h i hi
    rw [attrBitOf, attrBitOf]
    by_cases hc : (List.range (nA / 64)).all (fun w => a.getD w 0 == b.getD w 0) = true
    · rw [if_pos hc] at h
      by_cases hw : i / 64 < nA / 64
      · have := List.all_eq_true.mp hc (i / 64) (List.mem_range.mpr hw)
        rw [beq_iff_eq] at this
        rw [this]
      · have hiw : i / 64 = nA / 64 := by omega
        have hrem : i % 64 < nA % 64 := by omega
        have halw : nA % 64 ≠ 0 := by omega
        rw [if_neg halw] at h
        rw [beq_iff_eq] at h
        have := (get_bits_eq_zero_iff _ _ _).mp h (63 - i % 64 - (64 - nA % 64)) (by omega)
        have harith : 64 - nA % 64 + (63 - i % 64 - (64 - nA % 64)) = 63 - i % 64 := by
          omega
        rw [harith, Nat.testBit_xor] at this
        rw [hiw]
        revert this
        cases hA : (a.getD (nA / 64) 0).testBit (63 - i % 64) <;>
          cases hB : (b.getD (nA / 64) 0).testBit (63 - i % 64) <;> simp
    · rw [if_neg hc] at h
      exact absurd h (by simp)
  · intro h
    have hc : (List.range (nA / 64)).all (fun w => a.getD w 0 == b.getD w 0) = true := by
      rw [List.all_eq_true]
      intro w hw
      rw [beq_iff_eq]
      apply word_eq_of_testBit _ _ (getD_lt_of_all_lt a w hwa) (getD_lt_of_all_lt b w hwb)
      intro t ht
      have hiw : (64 * w + (63 - t)) / 64 = w := by omega
      have hit : (64 * w + (63 - t)) % 64 = 63 - t := by omega
      have hia : 64 * w + (63 - t) < nA := by
        have := List.mem_range.mp hw
        omega
      have := h (64 * w + (63 - t)) hia
      rw [attrBitOf, attrBitOf, hiw, hit] at this
      have harith : 63 - (63 - t) = t := by omega
      rw [harith] at this
      exact this
    rw [if_pos hc]
    by_cases hrem : nA % 64 = 0
    · rw [if_pos hrem]
    · rw [if_neg hrem, beq_iff_eq]
      rw [get_bits_eq_zero_iff]
      intro t ht
      have hia : 64 * (nA / 64) + (63 - (64 - nA % 64 + t)) < nA := by omega
      have hiw : (64 * (nA / 64) + (63 - (64 - nA % 64 + t))) / 64 = nA / 64 := by omega
      have hit : (64 * (nA / 64) + (63 - (64 - nA % 64 + t))) % 64 =
          63 - (64 - nA % 64 + t) := by omega
      have := h _ hia
      rw [attrBitOf, attrBitOf, hiw, hit] at this
      have harith : 63 - (63 - (64 - nA % 64 + t)) = 64 - nA % 64 + t := by omega
      rw [harith] at this
      rw [Nat.testBit_xor, this]
      simp

theorem jnsqValsGo_length (nA : Nat) (l : List (List Nat)) :
    ∀ prev v, (jnsqValsGo nA prev v l).length = l.length := by
  induction l with
  | nil => intro prev v; rfl
  | cons cur rest ih =>
    intro prev v
    rw [jnsqValsGo]
    simp only [List.length_cons, ih]

theorem addJnsqsGo_spec (nA nW nbc : Nat) (hnbc : nbc ≤ 64) :
    ∀ (rest : List (List Nat)) (prevO : List Nat) (v m : Nat),
      (∀ x ∈ prevO, x < 2 ^ 64) → (∀ r ∈ rest, ∀ x ∈ r, x < 2 ^ 64) →
      addJnsqsGo nA nW nbc (set_jnsq_bits prevO v nA nW nbc) v m rest =
        ((rest.zip (jnsqValsGo nA prevO v rest)).map
            (fun p => set_jnsq_bits p.1 p.2 nA nW nbc),
          (jnsqValsGo nA prevO v rest).foldl
            (fun acc x => if x > acc then x else acc) m) := by
  intro rest
  induction rest with
  | nil => intro prevO v m _ _; rfl
  | cons cur rest ih =>
    intro prevO v m hprev hrest
    have hcur : ∀ x ∈ cur, x < 2 ^ 64 := hrest cur (by simp)
    have hrest2 : ∀ r ∈ rest, ∀ x ∈ r, x < 2 ^ 64 :=
      fun r hr => hrest r (by simp [hr])
    rw [addJnsqsGo, jnsqValsGo]
    have hinc : (if has_same_attributes cur (set_jnsq_bits prevO v nA nW nbc) nA
        then v + 1 else 0) = (if attrEqSpec nA cur prevO then v + 1 else 0) := by
      rw [has_same_attributes_set_jnsq cur prevO v nA nW nbc hnbc]
      exact if_congr (has_same_attributes_iff cur prevO nA hcur hprev) rfl rfl
    simp only [hinc]
    rw [ih cur _ _ hcur hrest2]
    simp only [List.zip_cons_cons, List.map_cons, List.foldl_cons]

theorem foldl_if_max (l : List Nat) :
    ∀ m, l.foldl (fun acc x => if x > acc then x else acc) m =
      l.foldl (fun acc x => max acc x) m := by
  induction l with
  | nil => intro m; rfl
  | cons x l ih =>
    intro m
    rw [List.foldl_cons, List.foldl_cons, ih]
    congr 1
    by_cases h : x > m
    · rw [if_pos h]
      omega
    · rw [if_neg h]
      omega

theorem mainJnsqBits_eq_clog (m : Nat) : mainJnsqBits m = Nat.clog 2 (m + 1) := by
  rw [mainJnsqBits]
  by_cases h : m > 0
  · rw [if_pos h]
  · rw [if_neg h]
    have : m = 0 := by omega
    rw [this, Nat.clog_one_right]

/-- CLAIM C7. JNSQ assignment: on any nonnegative-length dataset,
`add_jnsqs` writes into each row exactly the JNSQ value that counts the
immediately preceding consecutive attribute-equal rows (first row 0,
reset to 0 on every change of attribute content, comparisons taken on
the original rows), the write only touches the bits after the attribute
bits, the returned maximum is the maximum of those values, and the
caller in main sets `n_bits_for_jnsqs` to the base-2 ceiling logarithm
of the maximum plus one, which is 0 when the maximum is 0. -/
theorem claim_C7_add_jnsqs (nA nW nbc : Nat) (rows : List (List Nat))
    (hnbc : nbc ≤ 64) (hwords : ∀ r ∈ rows, ∀ x ∈ r, x < 2 ^ 64) :
    (add_jnsqs nA nW nbc rows).1 =
      (rows.zip (jnsqSpecValues nA rows)).map
        (fun p => set_jnsq_bits p.1 p.2 nA nW nbc) ∧
    (add_jnsqs nA nW nbc rows).2 =
      (jnsqSpecValues nA rows).foldl (fun acc x => max acc x) 0 ∧
    (∀ k i, i < nA →
      attrBitOf ((add_jnsqs nA nW nbc rows).1.getD k []) i =
        attrBitOf (rows.getD k []) i) ∧
    mainJnsqBits ((add_jnsqs nA nW nbc rows).2) =
      Nat.clog 2 ((add_jnsqs nA nW nbc rows).2 + 1) := by
  have hmain : (add_jnsqs nA nW nbc rows).1 =
      (rows.zip (jnsqSpecValues nA rows)).map
        (fun p => set_jnsq_bits p.1 p.2 nA nW nbc) ∧
      (add_jnsqs nA nW nbc rows).2 =
        (jnsqSpecValues nA rows).foldl (fun acc x => max acc x) 0 := by
    cases rows with
    | nil => exact ⟨rfl, rfl⟩
    | cons first rest =>
      have hfirst : ∀ x ∈ first, x < 2 ^ 64 := hwords first (by simp)
      have hrest : ∀ r ∈ rest, ∀ x ∈ r, x < 2 ^ 64 :=
        fun r hr => hwords r (by simp [hr])
      rw [add_jnsqs, jnsqSpecValues]
      rw [addJnsqsGo_spec nA nW nbc hnbc rest first 0 0 hfirst hrest]
      rw [foldl_if_max]
      simp only [List.zip_cons_cons, List.map_cons, List.foldl_cons]
      constructor <;> trivial
  refine ⟨hmain.1, hmain.2, ?_, mainJnsqBits_eq_clog _⟩
  intro k i hi
  have hlen : (jnsqSpecValues nA rows).length = rows.length := by
    cases rows with
    | nil => rfl
    | cons first rest =>
      rw [jnsqSpecValues]
      simp only [List.length_cons, jnsqValsGo_length]
  by_cases hk : k < rows.length
  · have hk2 : k < ((rows.zip (jnsqSpecValues nA rows)).map
        (fun p => set_jnsq_bits p.1 p.2 nA nW nbc)).length := by
      simp [List.length_zip, hlen, hk]
    rw [hmain.1, List.getD_eq_getElem _ _ hk2, List.getD_eq_getElem _ _ hk]
    rw [List.getElem_map, List.getElem_zip]
    exact set_jnsq_bits_attr_frame _ _ nA nW nbc i hnbc hi
  · have hk2 : ((rows.zip (jnsqSpecValues nA rows)).map
        (fun p => set_jnsq_bits p.1 p.2 nA nW nbc)).length ≤ k := by
      simp [List.length_zip, hlen]
      omega
    rw [hmain.1, List.getD_eq_default _ _ hk2, List.getD_eq_default _ _ (by omega)]

/-- Witness for C7 at a two-row one-attribute dataset with an
inconsistency. -/
theorem claim_C7_add_jnsqs_witness :
    1 ≤ 64 ∧
    (∀ r ∈ ([[0], [2 ^ 63]] : List (List Nat)), ∀ x ∈ r, x < 2 ^ 64) ∧
    ((add_jnsqs 1 1 1 [[0], [2 ^ 63]]).1 =
      (([[0], [2 ^ 63]] : List (List Nat)).zip (jnsqSpecValues 1 [[0], [2 ^ 63]])).map
        (fun p => set_jnsq_bits p.1 p.2 1 1 1) ∧
    (add_jnsqs 1 1 1 [[0], [2 ^ 63]]).2 =
      (jnsqSpecValues 1 [[0], [2 ^ 63]]).foldl (fun acc x => max acc x) 0 ∧
    (∀ k i, i < 1 →
      attrBitOf ((add_jnsqs 1 1 1 [[0], [2 ^ 63]]).1.getD k []) i =
        attrBitOf (([[0], [2 ^ 63]] : List (List Nat)).getD k []) i) ∧
    mainJnsqBits ((add_jnsqs 1 1 1 [[0], [2 ^ 63]]).2) =
      Nat.clog 2 ((add_jnsqs 1 1 1 [[0], [2 ^ 63]]).2 + 1)) :=
  ⟨by omega, by decide,
    claim_C7_add_jnsqs 1 1 1 [[0], [2 ^ 63]] (by omega) (by decide)⟩

/-- CLAIM C8 (code_bug evidence). A dataset with 126 attributes and 5
classes (3 class bits): the JNSQ field splits across the word boundary
with 2 free bits in the last attribute word, and because
`set_jnsq_bits` shifts the already inverted value before writing the
second part, the high bit of the JNSQ value is dropped. The sorted,
deduplicated rows below are pairwise attribute-equal with classes 0..4,
so they receive JNSQ values 0..4 and J = 3 JNSQ bits; the rows with
values 0 and 4 end up with identical bits on the whole range
[0, 126 + 3), contradicting the claim that attribute-equal rows of
different classes differ on a bit in [A, A + J). -/
theorem claim_C8_jnsq_discernibility_bug :
    (add_jnsqs 126 3 3 [[0, 0, 0], [0, 0, 1], [0, 0, 2], [0, 0, 3], [0, 0, 4]]).2 = 4 ∧
    mainJnsqBits 4 = 3 ∧
    attrEqSpec 126 [0, 0, 0] [0, 0, 4] ∧
    ([0, 0, 0] : List Nat).getD 2 0 = 0 ∧
    ([0, 0, 4] : List Nat).getD 2 0 = 4 ∧
    (∀ i, i < 126 + 3 →
      attrBitOf ((add_jnsqs 126 3 3
          [[0, 0, 0], [0, 0, 1], [0, 0, 2], [0, 0, 3], [0, 0, 4]]).1.getD 0 []) i =
        attrBitOf ((add_jnsqs 126 3 3
          [[0, 0, 0], [0, 0, 1], [0, 0, 2], [0, 0, 3], [0, 0, 4]]).1.getD 4 []) i) := by
  refine ⟨by decide, ?_, by decide, by decide, by decide, by decide⟩
  rw [mainJnsqBits, if_pos (by omega)]
  show Nat.clog 2 5 = 3
  have h1 : Nat.clog 2 5 ≤ 3 := (Nat.le_pow_iff_clog_le (by omega)).mp (by norm_num)
  have h2 : ¬ (Nat.clog 2 5 ≤ 2) := by
    intro hc
    have := (Nat.le_pow_iff_clog_le (by omega)).mpr hc
    norm_num at this
  omega

/-! ## Canonical pair enumeration (the nested class loops of set_cover.c) -/

/-- The four nested while loops shared by
`calculate_initial_attribute_totals`, `calculate_attribute_totals_add`
and `calculate_attribute_totals_sub`: starting from the class offsets
`(ca, ia, cb, ib)`, enumerate at most `fuel` pairs (the guard
`cl < dm->s_size`) in canonical order, advancing `ib`, then `cb` (reset
`ib`), then `ia` (reset `cb = ca + 1`), then `ca`. -/
def pairsLoop (nc : Nat) (nopc : Nat → Nat) (fuel ca ia cb ib : Nat) :
    List (Nat × Nat × Nat × Nat) :=
  match fuel with
  | 0 => []
  | fuel' + 1 =>
    if ca < nc - 1 then
      if ia < nopc ca then
        if cb < nc then
          if ib < nopc cb then
            (ca, ia, cb, ib) :: pairsLoop nc nopc fuel' ca ia cb (ib + 1)
          else
            pairsLoop nc nopc (fuel' + 1) ca ia (cb + 1) 0
        else
          pairsLoop nc nopc (fuel' + 1) ca (ia + 1) (ca + 1) 0
      else
        pairsLoop nc nopc (fuel' + 1) (ca + 1) 0 (ca + 2) 0
    else []
termination_by (fuel, nc - ca, nopc ca - ia, nc - cb)

/-- The same loop without the fuel guard: all pairs from the given
offsets to the end of the canonical order. -/
def restFrom (nc : Nat) (nopc : Nat → Nat) (ca ia cb ib : Nat) :
    List (Nat × Nat × Nat × Nat) :=
  if ca < nc - 1 then
    if ia < nopc ca then
      if cb < nc then
        if ib < nopc cb then
          (ca, ia, cb, ib) :: restFrom nc nopc ca ia cb (ib + 1)
        else
          restFrom nc nopc ca ia (cb + 1) 0
      else
        restFrom nc nopc ca (ia + 1) (ca + 1) 0
    else
      restFrom nc nopc (ca + 1) 0 (ca + 2) 0
  else []
termination_by (nc - ca, nopc ca - ia, nc - cb, nopc cb - ib)

/-- Modelled from the spec: `seek(k)` of the pair enumerator, the core
of the missing `calculate_class_offsets` -- a nested scan in canonical
order that stops at the k-th remaining pair and signals the end by the
exhausted state otherwise. -/
def seekGo (nc : Nat) (nopc : Nat → Nat) (k ca ia cb ib : Nat) :
    Nat × Nat × Nat × Nat :=
  if ca < nc - 1 then
    if ia < nopc ca then
      if cb < nc then
        if ib < nopc cb then
          match k with
          | 0 => (ca, ia, cb, ib)
          | k + 1 => seekGo nc nopc k ca ia cb (ib + 1)
        else seekGo nc nopc k ca ia (cb + 1) 0
      else seekGo nc nopc k ca (ia + 1) (ca + 1) 0
    else seekGo nc nopc k (ca + 1) 0 (ca + 2) 0
  else (ca, ia, cb, ib)
termination_by (k, nc - ca, nopc ca - ia, nc - cb, nopc cb - ib)

/-- The canonical pair list of the spec: classA ascending, then indexA,
then classB above classA, then indexB. -/
def allPairs (nc : Nat) (nopc : Nat → Nat) : List (Nat × Nat × Nat × Nat) :=
  (List.range (nc - 1)).flatMap fun a =>
    (List.range (nopc a)).flatMap fun ia =>
      (List.range' (a + 1) (nc - (a + 1))).flatMap fun b =>
        (List.range (nopc b)).map fun ib => (a, ia, b, ib)

/-- `restFrom` applied to a packed offsets tuple. -/
def restFromP (nc : Nat) (nopc : Nat → Nat) (st : Nat × Nat × Nat × Nat) :
    List (Nat × Nat × Nat × Nat) :=
  restFrom nc nopc st.1 st.2.1 st.2.2.1 st.2.2.2

theorem restFrom_eq (nc : Nat) (nopc : Nat → Nat) (ca ia cb ib : Nat) :
    restFrom nc nopc ca ia cb ib =
      if ca < nc - 1 then
        if ia < nopc ca then
          if cb < nc then
            if ib < nopc cb then
              (ca, ia, cb, ib) :: restFrom nc nopc ca ia cb (ib + 1)
            else
              restFrom nc nopc ca ia (cb + 1) 0
          else
            restFrom nc nopc ca (ia + 1) (ca + 1) 0
        else
          restFrom nc nopc (ca + 1) 0 (ca + 2) 0
      else [] := by
  rw [restFrom]

theorem pairsLoop_eq_take (nc : Nat) (nopc : Nat → Nat) (fuel ca ia cb ib : Nat) :
    pairsLoop nc nopc fuel ca ia cb ib = (restFrom nc nopc ca ia cb ib).take fuel := by
  induction fuel, ca, ia, cb, ib using pairsLoop.induct nc nopc with
  | case1 ca ia cb ib =>
    simp [pairsLoop]
  | case2 fuel ca ia cb ib h1 h2 h3 h4 ih =>
    rw [pairsLoop, restFrom_eq]
    simp only [if_pos h1, if_pos h2, if_pos h3, if_pos h4, List.take_succ_cons, ih]
  | case3 fuel ca ia cb ib h1 h2 h3 h4 ih =>
    rw [pairsLoop, restFrom_eq]
    simp only [if_pos h1, if_pos h2, if_pos h3, if_neg h4, ih]
  | case4 fuel ca ia cb ib h1 h2 h3 ih =>
    rw [pairsLoop, restFrom_eq]
    simp only [if_pos h1, if_pos h2, if_neg h3, ih]
  | case5 fuel ca ia cb ib h1 h2 ih =>
    rw [pairsLoop, restFrom_eq]
    simp only [if_pos h1, if_neg h2, ih]
  | case6 fuel ca ia cb ib h1 =>
    rw [pairsLoop, restFrom_eq]
    simp only [if_neg h1, List.take_nil]

theorem restFromP_seekGo (nc : Nat) (nopc : Nat → Nat) (k ca ia cb ib : Nat) :
    restFromP nc nopc (seekGo nc nopc k ca ia cb ib) =
      (restFrom nc nopc ca ia cb ib).drop k := by
  induction k, ca, ia, cb, ib using seekGo.induct nc nopc with
  | case1 ca ia cb ib h1 h2 h3 h4 =>
    rw [seekGo.eq_def]
    simp only [if_pos h1, if_pos h2, if_pos h3, if_pos h4, List.drop_zero]
    rfl
  | case2 ca ia cb ib h1 h2 h3 h4 k ih =>
    rw [seekGo.eq_def]
    simp only [if_pos h1, if_pos h2, if_pos h3, if_pos h4]
    rw [restFrom_eq nc nopc ca ia cb ib]
    simp only [if_pos h1, if_pos h2, if_pos h3, if_pos h4, List.drop_succ_cons, ih]
  | case3 k ca ia cb ib h1 h2 h3 h4 ih =>
    rw [seekGo.eq_def]
    simp only [if_pos h1, if_pos h2, if_pos h3, if_neg h4]
    rw [restFrom_eq nc nopc ca ia cb ib]
    simp only [if_pos h1, if_pos h2, if_pos h3, if_neg h4, ih]
  | case4 k ca ia cb ib h1 h2 h3 ih =>
    rw [seekGo.eq_def]
    simp only [if_pos h1, if_pos h2, if_neg h3]
    rw [restFrom_eq nc nopc ca ia cb ib]
    simp only [if_pos h1, if_pos h2, if_neg h3, ih]
  | case5 k ca ia cb ib h1 h2 ih =>
    rw [seekGo.eq_def]
    simp only [if_pos h1, if_neg h2]
    rw [restFrom_eq nc nopc ca ia cb ib]
    simp only [if_pos h1, if_neg h2, ih]
  | case6 k ca ia cb ib h1 =>
    rw [seekGo.eq_def]
    simp only [if_neg h1]
    rw [restFromP, restFrom_eq]
    simp only [if_neg h1, List.drop_nil]

theorem restFrom_ib (nc : Nat) (nopc : Nat → Nat) (ca ia cb : Nat)
    (h1 : ca < nc - 1) (h2 : ia < nopc ca) (h3 : cb < nc) :
    ∀ n ib, nopc cb - ib = n →
      restFrom nc nopc ca ia cb ib =
        ((List.range' ib (nopc cb - ib)).map fun x => (ca, ia, cb, x)) ++
          restFrom nc nopc ca ia (cb + 1) 0 := by
  intro n
  induction n with
  | zero =>
    intro ib hib
    rw [restFrom_eq]
    simp only [if_pos h1, if_pos h2, if_pos h3, if_neg (show ¬ ib < nopc cb by omega)]
    rw [hib]
    simp
  | succ n ihn =>
    intro ib hib
    rw [restFrom_eq]
    simp only [if_pos h1, if_pos h2, if_pos h3, if_pos (show ib < nopc cb by omega)]
    rw [ihn (ib + 1) (by omega), hib]
    rw [List.range'_succ, List.map_cons, List.cons_append]
    have : nopc cb - (ib + 1) = n := by omega
    rw [this]

theorem restFrom_cb (nc : Nat) (nopc : Nat → Nat) (ca ia : Nat)
    (h1 : ca < nc - 1) (h2 : ia < nopc ca) :
    ∀ n cb, nc - cb = n →
      restFrom nc nopc ca ia cb 0 =
        ((List.range' cb (nc - cb)).flatMap fun b =>
          (List.range (nopc b)).map fun ib => (ca, ia, b, ib)) ++
          restFrom nc nopc ca (ia + 1) (ca + 1) 0 := by
  intro n
  induction n with
  | zero =>
    intro cb hcb
    rw [restFrom_eq]
    simp only [if_pos h1, if_pos h2, if_neg (show ¬ cb < nc by omega)]
    rw [hcb]
    simp
  | succ n ihn =>
    intro cb hcb
    have h3 : cb < nc := by omega
    rw [restFrom_ib nc nopc ca ia cb h1 h2 h3 (nopc cb) 0 (by omega)]
    rw [ihn (cb + 1) (by omega), hcb]
    rw [List.range'_succ, List.flatMap_cons]
    rw [List.append_assoc]
    have hr : List.range' 0 (nopc cb - 0) = List.range (nopc cb) := by
      rw [Nat.sub_zero, List.range_eq_range']
    rw [hr]
    have : nc - (cb + 1) = n := by omega
    rw [this]

theorem restFrom_ia (nc : Nat) (nopc : Nat → Nat) (ca : Nat) (h1 : ca < nc - 1) :
    ∀ n ia, nopc ca - ia = n →
      restFrom nc nopc ca ia (ca + 1) 0 =
        ((List.range' ia (nopc ca - ia)).flatMap fun i =>
          (List.range' (ca + 1) (nc - (ca + 1))).flatMap fun b =>
            (List.range (nopc b)).map fun ib => (ca, i, b, ib)) ++
          restFrom nc nopc (ca + 1) 0 (ca + 2) 0 := by
  intro n
  induction n with
  | zero =>
    intro ia hia
    rw [restFrom_eq]
    simp only [if_pos h1, if_neg (show ¬ ia < nopc ca by omega)]
    rw [hia]
    simp
  | succ n ihn =>
    intro ia hia
    have h2 : ia < nopc ca := by omega
    rw [restFrom_cb nc nopc ca ia h1 h2 (nc - (ca + 1)) (ca + 1) rfl]
    rw [ihn (ia + 1) (by omega), hia]
    rw [List.range'_succ, List.flatMap_cons]
    rw [List.append_assoc]
    have : nopc ca - (ia + 1) = n := by omega
    rw [this]

theorem restFrom_ca (nc : Nat) (nopc : Nat → Nat) :
    ∀ n ca, nc - 1 - ca = n →
      restFrom nc nopc ca 0 (ca + 1) 0 =
        (List.range' ca (nc - 1 - ca)).flatMap fun a =>
          (List.range (nopc a)).flatMap fun i =>
            (List.range' (a + 1) (nc - (a + 1))).flatMap fun b =>
              (List.range (nopc b)).map fun ib => (a, i, b, ib) := by
  intro n
  induction n with
  | zero =>
    intro ca hca
    rw [restFrom_eq]
    simp only [if_neg (show ¬ ca < nc - 1 by omega)]
    rw [hca]
    simp
  | succ n ihn =>
    intro ca hca
    have h1 : ca < nc - 1 := by omega
    rw [restFrom_ia nc nopc ca h1 (nopc ca) 0 (by omega)]
    rw [ihn (ca + 1) (by omega), hca]
    rw [List.range'_succ, List.flatMap_cons]
    have hr : List.range' 0 (nopc ca - 0) = List.range (nopc ca) := by
      rw [Nat.sub_zero, List.range_eq_range']
    rw [hr]
    have : nc - 1 - (ca + 1) = n := by omega
    rw [this]

/-- The loop resumed at the first state enumerates exactly the
canonical pair list. -/
theorem restFrom_init (nc : Nat) (nopc : Nat → Nat) :
    restFrom nc nopc 0 0 1 0 = allPairs nc nopc := by
  rw [restFrom_ca nc nopc (nc - 1 - 0) 0 rfl, allPairs]
  rw [Nat.sub_zero, ← List.range_eq_range']

theorem sum_map_const {α : Type} (l : List α) (c : Nat) :
    (l.map (fun _ => c)).sum = l.length * c := by
  induction l with
  | nil => simp
  | cons x l ih => simp [ih, Nat.succ_mul, Nat.add_comm]

theorem length_flatMap {α β : Type} (l : List α) (f : α → List β) :
    (l.flatMap f).length = (l.map (fun x => (f x).length)).sum := by
  induction l with
  | nil => rfl
  | cons x l ih => simp [List.flatMap_cons, ih]

theorem specPairSum_as_list (nc : Nat) (count : Nat → Nat) :
    specPairSum nc count =
      ((List.range (nc - 1)).map
        (fun a => ∑ b ∈ Finset.Ico (a + 1) nc, count a * count b)).sum := by
  rw [list_range_map_sum, specPairSum]
  cases nc with
  | zero => simp
  | succ m =>
    have hm : m + 1 - 1 = m := by omega
    rw [hm, Finset.sum_range_succ]
    have hlast : Finset.Ico (m + 1) (m + 1) = ∅ := by simp
    rw [hlast]
    simp

theorem allPairs_length (nc : Nat) (nopc : Nat → Nat) :
    (allPairs nc nopc).length = specPairSum nc nopc := by
  rw [allPairs, length_flatMap, specPairSum_as_list]
  congr 1
  apply List.map_congr_left
  intro a ha
  rw [length_flatMap]
  have hlen : ∀ ia : Nat,
      (((List.range' (a + 1) (nc - (a + 1))).flatMap fun b =>
        (List.range (nopc b)).map fun ib => (a, ia, b, ib)).length) =
      ((List.range' (a + 1) (nc - (a + 1))).map (fun b => nopc b)).sum := by
    intro ia
    rw [length_flatMap]
    congr 1
    apply List.map_congr_left
    intro b _
    simp
  have hmapc : (List.range (nopc a)).map
      (fun ia => ((List.range' (a + 1) (nc - (a + 1))).flatMap fun b =>
        (List.range (nopc b)).map fun ib => (a, ia, b, ib)).length) =
      (List.range (nopc a)).map
        (fun _ => ((List.range' (a + 1) (nc - (a + 1))).map (fun b => nopc b)).sum) := by
    apply List.map_congr_left
    intro ia _
    exact hlen ia
  rw [hmapc, sum_map_const, List.length_range, list_range'_map_sum]
  have harith : a + 1 + (nc - (a + 1)) = nc := by
    have := List.mem_range.mp ha
    omega
  rw [harith, Finset.mul_sum]

theorem foldl_mod_add_le (f : Nat → Nat) (l : List Nat) :
    ∀ acc1 acc2, acc1 ≤ acc2 →
      l.foldl (fun n x => (n + f x % 2 ^ 64) % 2 ^ 64) acc1 ≤ acc2 + (l.map f).sum := by
  induction l with
  | nil => intro acc1 acc2 h; simpa using h
  | cons x l ih =>
    intro acc1 acc2 h
    rw [List.foldl_cons]
    have hstep : (acc1 + f x % 2 ^ 64) % 2 ^ 64 ≤ acc2 + f x := by
      calc (acc1 + f x % 2 ^ 64) % 2 ^ 64 ≤ acc1 + f x % 2 ^ 64 := Nat.mod_le _ _
        _ ≤ acc2 + f x := by
          have := Nat.mod_le (f x) (2 ^ 64)
          omega
    have := ih ((acc1 + f x % 2 ^ 64) % 2 ^ 64) (acc2 + f x) hstep
    simp only [List.map_cons, List.sum_cons]
    omega

theorem get_dm_n_lines_le (nc : Nat) (count : Nat → Nat) :
    get_dm_n_lines nc count ≤ specPairSum nc count := by
  rw [get_dm_n_lines, specPairSum_as_list]
  have houter : ∀ (l : List Nat) (acc1 acc2 : Nat), acc1 ≤ acc2 →
      l.foldl (fun n a => (List.range' (a + 1) (nc - (a + 1))).foldl
          (fun n b => (n + count a * count b % 2 ^ 64) % 2 ^ 64) n) acc1 ≤
        acc2 + (l.map (fun a => ∑ b ∈ Finset.Ico (a + 1) nc, count a * count b)).sum := by
    intro l
    induction l with
    | nil => intro acc1 acc2 h; simpa using h
    | cons a l ih =>
      intro acc1 acc2 h
      rw [List.foldl_cons]
      have hin : (List.range' (a + 1) (nc - (a + 1))).foldl
          (fun n b => (n + count a * count b % 2 ^ 64) % 2 ^ 64) acc1 ≤
          acc2 + ∑ b ∈ Finset.Ico (a + 1) nc, count a * count b := by
        have hfl := foldl_mod_add_le (fun b => count a * count b)
          (List.range' (a + 1) (nc - (a + 1))) acc1 acc2 h
        have hsum : ((List.range' (a + 1) (nc - (a + 1))).map
            (fun b => count a * count b)).sum =
            ∑ b ∈ Finset.Ico (a + 1) nc, count a * count b := by
          rw [list_range'_map_sum]
          by_cases hle : a + 1 ≤ nc
          · have : a + 1 + (nc - (a + 1)) = nc := by omega
            rw [this]
          · have h1 : nc - (a + 1) = 0 := by omega
            have h2 : Finset.Ico (a + 1) nc = ∅ := Finset.Ico_eq_empty (by omega)
            rw [h1, h2]
            simp
        rw [hsum] at hfl
        exact hfl
      have := ih _ _ hin
      simp only [List.map_cons, List.sum_cons]
      omega
  have := houter (List.range (nc - 1)) 0 0 (le_refl 0)
  simpa using this

/-! ## The cover engine data model (set_cover.c, laid_by_lines.c) -/

/-- The read-only view of the preprocessed dataset that the cover
engine uses: class count, observations per class
(`n_observations_per_class`), and the word array of each observation
(`observations_per_class`), as a total function from class and index to
the words of the row. -/
structure CoverData where
  nWords : Nat
  nClasses : Nat
  nopc : Nat → Nat
  line : Nat → Nat → Nat → Nat

/-- XOR of word `w` of the two observations of a pair, the quantity
`la[ccw] ^ lb[ccw]` of the totals loops. -/
def xorWordOf (d : CoverData) : (Nat × Nat × Nat × Nat) → Nat → Nat
  | (ca, ia, cb, ib), w => (d.line ca ia w) ^^^ (d.line cb ib w)

/-- Attribute bit `a` of the XOR row of a pair: word `a / 64`, bit
`63 - a mod 64`, the position `catt` walks through in the totals
loops. -/
def xorAttrBit (d : CoverData) (p : Nat × Nat × Nat × Nat) (a : Nat) : Bool :=
  (xorWordOf d p (a / 64)).testBit (63 - a % 64)

/-- The pairs of the local window: the nested loops resumed at the
class offsets `off` for `s_size` pairs. -/
def windowPairs (d : CoverData) (off : Nat × Nat × Nat × Nat) (s_size : Nat) :
    List (Nat × Nat × Nat × Nat) :=
  pairsLoop d.nClasses d.nopc s_size off.1 off.2.1 off.2.2.1 off.2.2.2

/-- Modelled from the spec: the missing `calculate_class_offsets`
computes the class offsets of disjoint-matrix line `k` -- seek(k) of
the pair enumerator, by nested scan in canonical order from the first
state. -/
def calculate_class_offsets (d : CoverData) (k : Nat) : Nat × Nat × Nat × Nat :=
  seekGo d.nClasses d.nopc k 0 0 1 0

/-- Modelled from the spec: `BLOCK_LOW(rank, size, total)` of the
missing `utils/block.h` is `floor(rank * total / size)`. -/
def BLOCK_LOW (r n p : Nat) : Nat := r * p / n

/-- Modelled from the spec: `BLOCK_SIZE(rank, size, total)` is the
difference of consecutive block lows. -/
def BLOCK_SIZE (r n p : Nat) : Nat := BLOCK_LOW (r + 1) n p - BLOCK_LOW r n p

/-- `calculate_initial_attribute_totals(dataset, dm, totals)` of
set_cover.c at attribute index `a`: one `BIT_CHECK` contribution per
window pair. The C loop blocks the words in chunks of
`N_WORDS_PER_CYCLE` and re-enumerates the window per block; since the
entries of `totals` for the attributes of a block are touched only in
that block, the result per attribute equals this per-pair sum. -/
def calculate_initial_attribute_totals (d : CoverData) (off : Nat × Nat × Nat × Nat)
    (s_size a : Nat) : Nat :=
  ((windowPairs d off s_size).map
    (fun p => bitCheck (xorWordOf d p (a / 64)) (63 - a % 64))).sum

/-- `calculate_attribute_totals_add` of set_cover.c at attribute `a`:
the same sum restricted to window pairs whose covered bit is clear.
`covered` is the bit content of the `covered_lines` word array: local
line `cl` lives in word `cl / 64` at bit `63 - cl mod 64`, and the
function reads exactly that bit, so the array is modelled by its bit
function. -/
def calculate_attribute_totals_add (d : CoverData) (off : Nat × Nat × Nat × Nat)
    (s_size : Nat) (covered : Nat → Bool) (a : Nat) : Nat :=
  (((windowPairs d off s_size).enum).map
    (fun kp => if covered kp.1 then 0
      else bitCheck (xorWordOf d kp.2 (a / 64)) (63 - a % 64))).sum

/-- The total subtracted by `calculate_attribute_totals_sub` at
attribute `a`: one `BIT_CHECK` contribution per window pair whose bit
in the passed word array (main passes `best_column & ~covered_lines`)
is set. -/
def subCount (d : CoverData) (off : Nat × Nat × Nat × Nat) (s_size : Nat)
    (mask : Nat → Bool) (a : Nat) : Nat :=
  (((windowPairs d off s_size).enum).map
    (fun kp => if mask kp.1 then bitCheck (xorWordOf d kp.2 (a / 64)) (63 - a % 64)
      else 0)).sum

/-- `calculate_attribute_totals_sub` of set_cover.c at attribute `a`:
the uint64 decrements `totals[catt] -= BIT_CHECK(...)` compose to a
single subtraction modulo `2 ^ 64` of the masked contribution count
from the incoming totals entry. -/
def calculate_attribute_totals_sub (d : CoverData) (off : Nat × Nat × Nat × Nat)
    (s_size : Nat) (mask : Nat → Bool) (told : Nat → Nat) (a : Nat) : Int :=
  ((told a : Int) - subCount d off s_size mask a) % (2 : Int) ^ 64

/-- Modelled from the spec: the missing `get_column` walks the window
in canonical pair order and sets bit `k` of the output column when the
XOR of word `attr / 64` of the k-th pair has bit `63 - attr mod 64`
set; like `covered_lines` the column word array is modelled by its bit
content. -/
def get_column (d : CoverData) (off : Nat × Nat × Nat × Nat) (s_size attr k : Nat) :
    Bool :=
  match (windowPairs d off s_size)[k]? with
  | some p => xorAttrBit d p attr
  | none => false

/-- `update_covered_lines` of set_cover.c: `covered_lines[w] |=
best_column[w]` for every word, which is this disjunction on bit
content. -/
def update_covered_lines (col covered : Nat → Bool) : Nat → Bool :=
  fun k => covered k || col k

/-- The canonical window of the spec: `size` pairs of the canonical
pair list starting at `offset`. -/
def windowSpec (d : CoverData) (offset size : Nat) : List (Nat × Nat × Nat × Nat) :=
  ((allPairs d.nClasses d.nopc).drop offset).take size

/-- The quantity the totals invariant speaks about: the number of
window pairs whose covered bit is clear and whose XOR row has attribute
bit `a` set. -/
def specTotals (d : CoverData) (window : List (Nat × Nat × Nat × Nat))
    (covered : Nat → Bool) (a : Nat) : Nat :=
  window.enum.countP (fun kp => !covered kp.1 && xorAttrBit d kp.2 a)

/-- The number of uncovered pairs of a window, the quantity tracked by
`n_uncovered_lines`. -/
def specUncovered (window : List (Nat × Nat × Nat × Nat)) (covered : Nat → Bool) : Nat :=
  window.enum.countP (fun kp => !covered kp.1)

theorem windowPairs_eq_windowSpec (d : CoverData) (k s_size : Nat) :
    windowPairs d (calculate_class_offsets d k) s_size = windowSpec d k s_size := by
  rw [windowPairs, calculate_class_offsets, windowSpec]
  rw [pairsLoop_eq_take]
  have h := restFromP_seekGo d.nClasses d.nopc k 0 0 1 0
  rw [restFrom_init] at h
  rw [restFromP] at h
  rw [h]

theorem windowPairs_length_le (d : CoverData) (off : Nat × Nat × Nat × Nat)
    (s_size : Nat) : (windowPairs d off s_size).length ≤ s_size := by
  rw [windowPairs, pairsLoop_eq_take]
  simpa using List.length_take_le s_size _

/-! ## Generic list sum helpers for the totals proofs -/

theorem countP_eq_sum_map {α : Type} (l : List α) (p : α → Bool) :
    l.countP p = (l.map (fun x => if p x then 1 else 0)).sum := by
  induction l with
  | nil => rfl
  | cons x l ih =>
    rw [List.countP_cons, List.map_cons, List.sum_cons, ih]
    by_cases h : p x
    · simp [h]
      omega
    · simp [h]

theorem sum_map_add_split {α : Type} (l : List α) (f g : α → Nat) :
    (l.map (fun x => f x + g x)).sum = (l.map f).sum + (l.map g).sum := by
  induction l with
  | nil => rfl
  | cons x l ih =>
    simp only [List.map_cons, List.sum_cons, ih]
    omega

theorem sum_map_le_length {α : Type} (l : List α) (f : α → Nat)
    (h : ∀ x ∈ l, f x ≤ 1) : (l.map f).sum ≤ l.length := by
  induction l with
  | nil => simp
  | cons x l ih =>
    simp only [List.map_cons, List.sum_cons, List.length_cons]
    have h1 := h x (by simp)
    have h2 := ih (fun y hy => h y (by simp [hy]))
    omega

theorem bitCheck_le_one (x b : Nat) : bitCheck x b ≤ 1 := by
  rw [bitCheck]
  split_ifs <;> omega

theorem specTotals_eq_sum (d : CoverData) (window : List (Nat × Nat × Nat × Nat))
    (covered : Nat → Bool) (a : Nat) :
    specTotals d window covered a =
      (window.enum.map
        (fun kp => if covered kp.1 then 0
          else bitCheck (xorWordOf d kp.2 (a / 64)) (63 - a % 64))).sum := by
  rw [specTotals, countP_eq_sum_map]
  congr 1
  apply List.map_congr_left
  intro kp _
  rw [xorAttrBit, bitCheck]
  by_cases hc : covered kp.1
  · simp [hc]
  · simp [hc]

theorem enumFrom_map_sum {α : Type} (l : List α) (f : α → Nat) :
    ∀ n, ((List.enumFrom n l).map (fun kp => f kp.2)).sum = (l.map f).sum := by
  induction l with
  | nil => intro n; rfl
  | cons x l ih =>
    intro n
    rw [List.enumFrom_cons]
    simp only [List.map_cons, List.sum_cons, ih]

theorem BLOCK_SIZE_le (r N P : Nat) (hN : 0 < N) (hr : r < N) :
    BLOCK_SIZE r N P ≤ P := by
  rw [BLOCK_SIZE, BLOCK_LOW, BLOCK_LOW]
  have h1 : (r + 1) * P / N ≤ N * P / N := by
    apply Nat.div_le_div_right
    exact Nat.mul_le_mul_right P (by omega)
  rw [Nat.mul_div_cancel_left P hN] at h1
  exact le_trans (Nat.sub_le _ _) h1

theorem specTotals_le (d : CoverData) (window : List (Nat × Nat × Nat × Nat))
    (covered : Nat → Bool) (a : Nat) :
    specTotals d window covered a ≤ window.length := by
  rw [specTotals]
  calc window.enum.countP (fun kp => !covered kp.1 && xorAttrBit d kp.2 a)
      ≤ window.enum.length := List.countP_le_length _
    _ = window.length := List.enum_length

/-- Pointwise split of the totals of an old covered state into the
totals of the extended covered state plus the contribution of the newly
masked pairs, for any mask disjoint from the old covered bits. -/
theorem specTotals_split (d : CoverData) (window : List (Nat × Nat × Nat × Nat))
    (covered mask : Nat → Bool) (hdisj : ∀ k, mask k = true → covered k = false)
    (a : Nat) :
    specTotals d window covered a =
      specTotals d window (fun k => covered k || mask k) a +
        (window.enum.map
          (fun kp => if mask kp.1 then
            bitCheck (xorWordOf d kp.2 (a / 64)) (63 - a % 64) else 0)).sum := by
  rw [specTotals_eq_sum, specTotals_eq_sum, ← sum_map_add_split]
  congr 1
  apply List.map_congr_left
  intro kp _
  by_cases hc : covered kp.1
  · have hm : mask kp.1 = false := by
      by_cases h : mask kp.1
      · rw [hdisj kp.1 h] at hc
        exact absurd hc (by simp)
      · simpa using h
    simp [hc, hm]
  · by_cases hm : mask kp.1
    · simp [hc, hm]
    · simp [hc, hm]

/-- CLAIM C1. Totals invariant of the cover loop: with the process
window given by the block partition and the seek of the initial class
offsets, the window enumerated by the nested totals loops is exactly
the canonical window; after `calculate_initial_attribute_totals` every
attribute total equals the number of window pairs (all uncovered) with
that XOR bit set; the add-mode rebuild establishes the invariant for
any covered state; and the sub-mode update (with the mask
`best_column & ~covered_lines` of main) carries the invariant from any
covered state to the extended one. -/
theorem claim_C1_totals_invariant (d : CoverData) (N r P : Nat)
    (off : Nat × Nat × Nat × Nat) (s_size : Nat)
    (hN : 0 < N) (hr : r < N) (hP64 : P < 2 ^ 64)
    (hoff : off = calculate_class_offsets d (BLOCK_LOW r N P))
    (hss : s_size = BLOCK_SIZE r N P) :
    windowPairs d off s_size = windowSpec d (BLOCK_LOW r N P) s_size ∧
    (∀ a, calculate_initial_attribute_totals d off s_size a =
      specTotals d (windowSpec d (BLOCK_LOW r N P) s_size) (fun _ => false) a) ∧
    (∀ covered a, calculate_attribute_totals_add d off s_size covered a =
      specTotals d (windowSpec d (BLOCK_LOW r N P) s_size) covered a) ∧
    (∀ (covered : Nat → Bool) (told : Nat → Nat) (best : Nat),
      (∀ a, told a = specTotals d (windowSpec d (BLOCK_LOW r N P) s_size) covered a) →
      ∀ a, calculate_attribute_totals_sub d off s_size
          (fun k => get_column d off s_size best k && !covered k) told a =
        (specTotals d (windowSpec d (BLOCK_LOW r N P) s_size)
          (fun k => covered k || (get_column d off s_size best k && !covered k)) a
          : Int)) := by
  subst hoff hss
  have hwin := windowPairs_eq_windowSpec d (BLOCK_LOW r N P) (BLOCK_SIZE r N P)
  refine ⟨hwin, ?_, ?_, ?_⟩
  · intro a
    rw [calculate_initial_attribute_totals, hwin, specTotals_eq_sum]
    simp only [Bool.false_eq_true, if_false]
    exact (enumFrom_map_sum _ (fun p => bitCheck (xorWordOf d p (a / 64)) (63 - a % 64))
      0).symm
  · intro covered a
    rw [calculate_attribute_totals_add, hwin, specTotals_eq_sum]
  · intro covered told best hinv a
    set mask := fun k =>
      get_column d (calculate_class_offsets d (BLOCK_LOW r N P)) (BLOCK_SIZE r N P)
        best k && !covered k with hmask
    have hdisj : ∀ k, mask k = true → covered k = false := by
      intro k hk
      rw [hmask] at hk
      simp only [Bool.and_eq_true, Bool.not_eq_eq_eq_not] at hk
      simpa using hk.2
    have hsplit := specTotals_split d (windowSpec d (BLOCK_LOW r N P) (BLOCK_SIZE r N P))
      covered mask hdisj a
    rw [calculate_attribute_totals_sub, subCount, hwin]
    have htold := hinv a
    have hnew_le : specTotals d (windowSpec d (BLOCK_LOW r N P) (BLOCK_SIZE r N P))
        (fun k => covered k || mask k) a < 2 ^ 64 := by
      have h1 := specTotals_le d (windowSpec d (BLOCK_LOW r N P) (BLOCK_SIZE r N P))
        (fun k => covered k || mask k) a
      have h2 : (windowSpec d (BLOCK_LOW r N P) (BLOCK_SIZE r N P)).length ≤
          BLOCK_SIZE r N P := by
        rw [← hwin]
        exact windowPairs_length_le _ _ _
      have h3 := BLOCK_SIZE_le r N P hN hr
      omega
    have heq : (told a : Int) -
        ((windowSpec d (BLOCK_LOW r N P) (BLOCK_SIZE r N P)).enum.map
          (fun kp => if mask kp.1 then
            bitCheck (xorWordOf d kp.2 (a / 64)) (63 - a % 64) else 0)).sum =
        (specTotals d (windowSpec d (BLOCK_LOW r N P) (BLOCK_SIZE r N P))
          (fun k => covered k || mask k) a : Int) := by
      rw [htold, hsplit]
      push_cast
      ring
    rw [heq]
    apply Int.emod_eq_of_lt
    · positivity
    · exact_mod_cast hnew_le

/-- Witness for C1 at a two-class dataset with one observation per
class, one process. -/
theorem claim_C1_totals_invariant_witness :
    let d : CoverData := ⟨1, 2, fun _ => 1, fun c _ _ => c⟩
    windowPairs d (calculate_class_offsets d (BLOCK_LOW 0 1 1)) (BLOCK_SIZE 0 1 1) =
      windowSpec d (BLOCK_LOW 0 1 1) (BLOCK_SIZE 0 1 1) ∧
    (∀ a, calculate_initial_attribute_totals d
        (calculate_class_offsets d (BLOCK_LOW 0 1 1)) (BLOCK_SIZE 0 1 1) a =
      specTotals d (windowSpec d (BLOCK_LOW 0 1 1) (BLOCK_SIZE 0 1 1))
        (fun _ => false) a) ∧
    (∀ covered a, calculate_attribute_totals_add d
        (calculate_class_offsets d (BLOCK_LOW 0 1 1)) (BLOCK_SIZE 0 1 1) covered a =
      specTotals d (windowSpec d (BLOCK_LOW 0 1 1) (BLOCK_SIZE 0 1 1)) covered a) ∧
    (∀ (covered : Nat → Bool) (told : Nat → Nat) (best : Nat),
      (∀ a, told a = specTotals d (windowSpec d (BLOCK_LOW 0 1 1) (BLOCK_SIZE 0 1 1))
        covered a) →
      ∀ a, calculate_attribute_totals_sub d
          (calculate_class_offsets d (BLOCK_LOW 0 1 1)) (BLOCK_SIZE 0 1 1)
          (fun k => get_column d (calculate_class_offsets d (BLOCK_LOW 0 1 1))
            (BLOCK_SIZE 0 1 1) best k && !covered k) told a =
        (specTotals d (windowSpec d (BLOCK_LOW 0 1 1) (BLOCK_SIZE 0 1 1))
          (fun k => covered k ||
            (get_column d (calculate_class_offsets d (BLOCK_LOW 0 1 1))
              (BLOCK_SIZE 0 1 1) best k && !covered k)) a : Int)) :=
  claim_C1_totals_invariant ⟨1, 2, fun _ => 1, fun c _ _ => c⟩ 1 0 1 _ _
    (by omega) (by omega) (by norm_num) rfl rfl

/-- CLAIM C2. Add/Sub equivalence: from any engine state whose local
totals satisfy the totals invariant over the local window, the sub-mode
update (subtract the masked contributions, then or the mask into
covered) and the add-mode update (or the column into covered, then
rebuild) produce identical new totals for every attribute and identical
covered bit arrays. -/
theorem claim_C2_add_sub_equivalence (d : CoverData) (off : Nat × Nat × Nat × Nat)
    (s_size : Nat) (covered : Nat → Bool) (told : Nat → Nat) (best : Nat)
    (hsize : s_size < 2 ^ 64)
    (hinv : ∀ a, told a = specTotals d (windowPairs d off s_size) covered a) :
    (∀ a, calculate_attribute_totals_sub d off s_size
        (fun k => get_column d off s_size best k && !covered k) told a =
      (calculate_attribute_totals_add d off s_size
        (fun k => covered k || get_column d off s_size best k) a : Int)) ∧
    (∀ k, update_covered_lines (fun k => get_column d off s_size best k && !covered k)
        covered k =
      update_covered_lines (fun k => get_column d off s_size best k) covered k) := by
  constructor
  · intro a
    set mask := fun k => get_column d off s_size best k && !covered k with hmask
    have hdisj : ∀ k, mask k = true → covered k = false := by
      intro k hk
      rw [hmask] at hk
      simp only [Bool.and_eq_true, Bool.not_eq_eq_eq_not] at hk
      simpa using hk.2
    have hcov : ∀ k, (covered k || mask k) =
        (covered k || get_column d off s_size best k) := by
      intro k
      rw [hmask]
      by_cases hc : covered k <;> by_cases hg : get_column d off s_size best k <;>
        simp [hc, hg]
    have hsplit := specTotals_split d (windowPairs d off s_size) covered mask hdisj a
    have hadd : calculate_attribute_totals_add d off s_size
        (fun k => covered k || get_column d off s_size best k) a =
        specTotals d (windowPairs d off s_size)
          (fun k => covered k || mask k) a := by
      rw [specTotals_eq_sum, calculate_attribute_totals_add]
      congr 1
      apply List.map_congr_left
      intro kp _
      rw [hcov kp.1]
    have hnew_le : specTotals d (windowPairs d off s_size)
        (fun k => covered k || mask k) a < 2 ^ 64 := by
      have h1 := specTotals_le d (windowPairs d off s_size)
        (fun k => covered k || mask k) a
      have h2 := windowPairs_length_le d off s_size
      omega
    rw [calculate_attribute_totals_sub, subCount, hadd]
    have heq : (told a : Int) -
        ((windowPairs d off s_size).enum.map
          (fun kp => if mask kp.1 then
            bitCheck (xorWordOf d kp.2 (a / 64)) (63 - a % 64) else 0)).sum =
        (specTotals d (windowPairs d off s_size) (fun k => covered k || mask k) a
          : Int) := by
      rw [hinv a, hsplit]
      push_cast
      ring
    rw [heq]
    apply Int.emod_eq_of_lt
    · positivity
    · exact_mod_cast hnew_le
  · intro k
    rw [update_covered_lines, update_covered_lines]
    by_cases hc : covered k <;> by_cases hg : get_column d off s_size best k <;>
      simp [hc, hg]

/-- Witness for C2 at the same tiny dataset, with the totals given by
the invariant itself. -/
theorem claim_C2_add_sub_equivalence_witness :
    let d : CoverData := ⟨1, 2, fun _ => 1, fun c _ _ => c⟩
    (∀ a, calculate_attribute_totals_sub d (0, 0, 1, 0) 1
        (fun k => get_column d (0, 0, 1, 0) 1 0 k && !(fun _ => false) k)
        (fun a => specTotals d (windowPairs d (0, 0, 1, 0) 1) (fun _ => false) a) a =
      (calculate_attribute_totals_add d (0, 0, 1, 0) 1
        (fun k => (fun _ => false) k || get_column d (0, 0, 1, 0) 1 0 k) a : Int)) ∧
    (∀ k, update_covered_lines
        (fun k => get_column d (0, 0, 1, 0) 1 0 k && !(fun _ => false) k)
        (fun _ => false) k =
      update_covered_lines (fun k => get_column d (0, 0, 1, 0) 1 0 k)
        (fun _ => false) k) :=
  claim_C2_add_sub_equivalence ⟨1, 2, fun _ => 1, fun c _ _ => c⟩ (0, 0, 1, 0) 1
    (fun _ => false) _ 0 (by norm_num) (fun _ => rfl)

theorem countP_and_split {α : Type} (l : List α) (p q : α → Bool) :
    l.countP p =
      l.countP (fun x => p x && q x) + l.countP (fun x => p x && !q x) := by
  induction l with
  | nil => rfl
  | cons x l ih =>
    rw [List.countP_cons, List.countP_cons, List.countP_cons, ih]
    by_cases hp : p x <;> by_cases hq : q x <;> simp [hp, hq] <;> omega

theorem countP_mono_imp {α : Type} (l : List α) (p q : α → Bool)
    (h : ∀ x ∈ l, p x = true → q x = true) : l.countP p ≤ l.countP q := by
  induction l with
  | nil => exact le_refl 0
  | cons x l ih =>
    rw [List.countP_cons, List.countP_cons]
    have h2 := ih (fun y hy => h y (by simp [hy]))
    by_cases hp : p x
    · rw [h x (by simp) hp]
      simp [hp]
      omega
    · simp [hp]
      split_ifs <;> omega

theorem flatMap_blocks {α : Type} (L : List α) (f : Nat → Nat)
    (hmono : ∀ r, f r ≤ f (r + 1)) (hz : f 0 = 0) :
    ∀ N, (List.range N).flatMap (fun r => (L.drop (f r)).take (f (r + 1) - f r)) =
      L.take (f N) := by
  intro N
  induction N with
  | zero => simp [hz]
  | succ N ih =>
    rw [List.range_succ, List.flatMap_append, ih]
    simp only [List.flatMap_cons, List.flatMap_nil, List.append_nil]
    have hle : f N ≤ f (N + 1) := hmono N
    have harith : f (N + 1) = f N + (f (N + 1) - f N) := by omega
    rw [harith, List.take_add]
    have h2 : f N + (f (N + 1) - f N) - f N = f (N + 1) - f N := by omega
    rw [h2]

/-- CLAIM C10. Uncovered counters never wrap: whenever the per-rank
totals and uncovered counters satisfy the loop invariants (totals count
uncovered pairs per attribute, uncovered counters count uncovered
pairs, the global counter is their sum over all ranks), the totals
entry of the broadcast attribute never exceeds the local uncovered
counter, its global sum never exceeds the global counter -- so the
unsigned subtractions of main cannot underflow -- the rank windows are
exactly the first `P` canonical pairs, and the root termination test
(the updated global counter reaching zero) holds exactly when after
covering by the chosen attribute every local pair of every rank is
covered. -/
theorem claim_C10_no_underflow (d : CoverData) (N : Nat) (hN : 0 < N) (P : Nat)
    (covered : Nat → Nat → Bool) (totals : Nat → Nat → Nat) (nUncov : Nat → Nat)
    (g best : Nat)
    (hinv : ∀ r, r < N → ∀ a, totals r a =
      specTotals d (windowSpec d (BLOCK_LOW r N P) (BLOCK_SIZE r N P)) (covered r) a)
    (hunc : ∀ r, r < N → nUncov r =
      specUncovered (windowSpec d (BLOCK_LOW r N P) (BLOCK_SIZE r N P)) (covered r))
    (hg : g = ∑ r ∈ Finset.range N, nUncov r) :
    (∀ r, r < N → totals r best ≤ nUncov r) ∧
    (∑ r ∈ Finset.range N, totals r best ≤ g) ∧
    ((List.range N).flatMap
        (fun r => windowSpec d (BLOCK_LOW r N P) (BLOCK_SIZE r N P)) =
      (allPairs d.nClasses d.nopc).take P) ∧
    (g - (∑ r ∈ Finset.range N, totals r best) = 0 ↔
      ∀ r, r < N →
        ∀ kp ∈ (windowSpec d (BLOCK_LOW r N P) (BLOCK_SIZE r N P)).enum,
          covered r kp.1 = true ∨ xorAttrBit d kp.2 best = true) := by
  have hle : ∀ r, r < N → totals r best ≤ nUncov r := by
    intro r hr
    rw [hinv r hr best, hunc r hr, specTotals, specUncovered]
    apply countP_mono_imp
    intro kp _ hkp
    simp only [Bool.and_eq_true] at hkp
    exact hkp.1
  have hrest : ∀ r, r < N → nUncov r = totals r best +
      (windowSpec d (BLOCK_LOW r N P) (BLOCK_SIZE r N P)).enum.countP
        (fun kp => !covered r kp.1 && !xorAttrBit d kp.2 best) := by
    intro r hr
    rw [hinv r hr best, hunc r hr, specTotals, specUncovered]
    exact countP_and_split _ _ _
  have hsum_le : ∑ r ∈ Finset.range N, totals r best ≤ g := by
    rw [hg]
    apply Finset.sum_le_sum
    intro r hr
    exact hle r (Finset.mem_range.mp hr)
  refine ⟨hle, hsum_le, ?_, ?_⟩
  · have hmono : ∀ r, BLOCK_LOW r N P ≤ BLOCK_LOW (r + 1) N P := by
      intro r
      rw [BLOCK_LOW, BLOCK_LOW]
      apply Nat.div_le_div_right
      exact Nat.mul_le_mul_right P (by omega)
    have hz : BLOCK_LOW 0 N P = 0 := by
      rw [BLOCK_LOW]
      simp
    have hN2 : BLOCK_LOW N N P = P := by
      rw [BLOCK_LOW]
      exact Nat.mul_div_cancel_left P hN
    have := flatMap_blocks (allPairs d.nClasses d.nopc)
      (fun r => BLOCK_LOW r N P) hmono hz N
    rw [hN2] at this
    exact this
  · have hgsplit : g = (∑ r ∈ Finset.range N, totals r best) +
        ∑ r ∈ Finset.range N,
          (windowSpec d (BLOCK_LOW r N P) (BLOCK_SIZE r N P)).enum.countP
            (fun kp => !covered r kp.1 && !xorAttrBit d kp.2 best) := by
      rw [hg, ← Finset.sum_add_distrib]
      apply Finset.sum_congr rfl
      intro r hr
      exact hrest r (Finset.mem_range.mp hr)
    rw [hgsplit]
    have harith : (∑ r ∈ Finset.range N, totals r best) +
        (∑ r ∈ Finset.range N,
          (windowSpec d (BLOCK_LOW r N P) (BLOCK_SIZE r N P)).enum.countP
            (fun kp => !covered r kp.1 && !xorAttrBit d kp.2 best)) -
        (∑ r ∈ Finset.range N, totals r best) =
        ∑ r ∈ Finset.range N,
          (windowSpec d (BLOCK_LOW r N P) (BLOCK_SIZE r N P)).enum.countP
            (fun kp => !covered r kp.1 && !xorAttrBit d kp.2 best) := by
      omega
    rw [harith]
    rw [Finset.sum_eq_zero_iff]
    constructor
    · intro hall r hr kp hkp
      have := hall r (Finset.mem_range.mpr hr)
      rw [List.countP_eq_zero] at this
      have h2 := this kp hkp
      by_cases hc : covered r kp.1
      · exact Or.inl hc
      · right
        by_cases hb : xorAttrBit d kp.2 best
        · exact hb
        · exfalso
          apply h2
          simp [hc, hb]
    · intro hall r hr
      rw [List.countP_eq_zero]
      intro kp hkp
      have := hall r (Finset.mem_range.mp hr) kp hkp
      rcases this with hc | hb
      · simp [hc]
      · simp [hb]

/-- Witness for C10 at the two-class one-observation dataset, one
rank, with state functions given by the invariants themselves. -/
theorem claim_C10_no_underflow_witness :
    let d : CoverData := ⟨1, 2, fun _ => 1, fun c _ _ => c⟩
    (∀ r, r < 1 →
      (fun r a => specTotals d (windowSpec d (BLOCK_LOW r 1 1) (BLOCK_SIZE r 1 1))
        (fun _ => false) a) r 0 ≤
      (fun r => specUncovered (windowSpec d (BLOCK_LOW r 1 1) (BLOCK_SIZE r 1 1))
        (fun _ => false)) r) ∧
    (∑ r ∈ Finset.range 1,
      (fun r a => specTotals d (windowSpec d (BLOCK_LOW r 1 1) (BLOCK_SIZE r 1 1))
        (fun _ => false) a) r 0 ≤
      ∑ r ∈ Finset.range 1,
        (fun r => specUncovered (windowSpec d (BLOCK_LOW r 1 1) (BLOCK_SIZE r 1 1))
          (fun _ => false)) r) ∧
    ((List.range 1).flatMap
        (fun r => windowSpec d (BLOCK_LOW r 1 1) (BLOCK_SIZE r 1 1)) =
      (allPairs d.nClasses d.nopc).take 1) ∧
    ((∑ r ∈ Finset.range 1,
        (fun r => specUncovered (windowSpec d (BLOCK_LOW r 1 1) (BLOCK_SIZE r 1 1))
          (fun _ => false)) r) -
      (∑ r ∈ Finset.range 1,
        (fun r a => specTotals d (windowSpec d (BLOCK_LOW r 1 1) (BLOCK_SIZE r 1 1))
          (fun _ => false) a) r 0) = 0 ↔
      ∀ r, r < 1 →
        ∀ kp ∈ (windowSpec d (BLOCK_LOW r 1 1) (BLOCK_SIZE r 1 1)).enum,
          (fun _ _ => false : Nat → Nat → Bool) r kp.1 = true ∨
            xorAttrBit d kp.2 0 = true) :=
  claim_C10_no_underflow ⟨1, 2, fun _ => 1, fun c _ _ => c⟩ 1 (by omega) 1
    (fun _ _ => false) _ _ _ 0
    (fun _ _ _ => rfl) (fun _ _ => rfl) rfl

/-! ## The distributed cover engine (main loop of laid_by_lines.c) -/

/-- The number of disjoint-matrix lines main computes before the cover
loop: `dm.n_matrix_lines = get_dm_n_lines(&dataset)`. -/
def engineP (d : CoverData) : Nat := get_dm_n_lines d.nClasses d.nopc

/-- The per-process mutable state of the cover loop: the
`covered_lines` bit array (modelled by its bit content), the
`attribute_totals` array and the `n_uncovered_lines` counter. -/
structure PState where
  covered : Nat → Bool
  totals : Nat → Nat
  nUncov : Nat

/-- The global state of one run: the state of every process, plus the
root-only data `global_n_uncovered_lines`, the selected attributes (as
the list of attribute indices in selection order, the content of the
`selected_attributes` bit array), and whether the loop was left for
`show_solution`. -/
structure GState where
  procs : Nat → PState
  gUncov : Nat
  selected : List Nat
  finished : Bool

/-- The class offsets of rank `r` among `N`:
`calculate_class_offsets(&dataset, dm.s_offset, ...)` with
`dm.s_offset = BLOCK_LOW(rank, size, dm.n_matrix_lines)`. -/
def rankOff (d : CoverData) (N r : Nat) : Nat × Nat × Nat × Nat :=
  calculate_class_offsets d (BLOCK_LOW r N (engineP d))

/-- The window size of rank `r` among `N`:
`dm.s_size = BLOCK_SIZE(rank, size, dm.n_matrix_lines)`. -/
def rankSize (d : CoverData) (N r : Nat) : Nat :=
  BLOCK_SIZE r N (engineP d)

/-- The column of attribute `b` over the window of rank `r`, the
content of `best_column` after `get_column`. -/
def rankCol (d : CoverData) (N r b : Nat) : Nat → Bool :=
  fun k => get_column d (rankOff d N r) (rankSize d N r) b k

/-- The canonical window of rank `r` among `N` processes. -/
def rankWindow (d : CoverData) (N r : Nat) : List (Nat × Nat × Nat × Nat) :=
  windowSpec d (BLOCK_LOW r N (engineP d)) (rankSize d N r)

/-- The state of one process before the first loop iteration:
`covered_lines` calloced to zero, `n_uncovered_lines = dm.s_size`, and
`attribute_totals` filled by `calculate_initial_attribute_totals`. -/
def initPState (d : CoverData) (N r : Nat) : PState where
  covered := fun _ => false
  totals := calculate_initial_attribute_totals d (rankOff d N r) (rankSize d N r)
  nUncov := rankSize d N r

/-- The global state before the first loop iteration:
`global_n_uncovered_lines = dm.n_matrix_lines`, no attribute selected
yet. -/
def initGState (d : CoverData) (N : Nat) : GState where
  procs := fun r => initPState d N r
  gUncov := engineP d
  selected := []
  finished := false

/-- The body every process runs after receiving a broadcast attribute
`b ≥ 0` (laid_by_lines.c, lines 537 to 577): subtract the local total
of `b` from `n_uncovered_lines`; if it reaches zero, memset the first
`n_attributes` totals entries and continue; otherwise fetch the column
of `b` and either (fewer uncovered lines left than the total of `b`)
OR the column into `covered_lines` and rebuild the totals in add mode,
or mask the column by `~covered_lines`, subtract its contributions in
sub mode and then OR the mask into `covered_lines`. -/
def procStep (d : CoverData) (nAttr N r : Nat) (ps : PState) (b : Nat) : PState :=
  if ps.nUncov - ps.totals b = 0 then
    { covered := ps.covered
      totals := fun a => if a < nAttr then 0 else ps.totals a
      nUncov := ps.nUncov - ps.totals b }
  else if ps.nUncov - ps.totals b < ps.totals b then
    { covered := update_covered_lines (rankCol d N r b) ps.covered
      totals := calculate_attribute_totals_add d (rankOff d N r) (rankSize d N r)
        (update_covered_lines (rankCol d N r b) ps.covered)
      nUncov := ps.nUncov - ps.totals b }
  else
    { covered := update_covered_lines
        (fun k => rankCol d N r b k && !ps.covered k) ps.covered
      totals := fun a => (calculate_attribute_totals_sub d (rankOff d N r)
        (rankSize d N r) (fun k => rankCol d N r b k && !ps.covered k)
        ps.totals a).toNat
      nUncov := ps.nUncov - ps.totals b }

/-- The reduced global totals the root sees: the `MPI_Reduce` sum of
the per-process totals. -/
def gtotOf (N : Nat) (st : GState) (a : Nat) : Nat :=
  ∑ r ∈ Finset.range N, (st.procs r).totals a

/-- One iteration of the `while(true)` loop of main across all `N`
processes: reduce the totals, let the root pick the best attribute,
mark it, update the global uncovered counter and broadcast (the
sentinel -1 when the pick was -1 or the counter reached zero, in which
case every process leaves the loop); otherwise every process runs its
body. When the pick itself is -1 the C root indexes the totals and the
selected array at -1, which is undefined; the model leaves counter and
selection unchanged, identically for every process count. -/
def systemStep (d : CoverData) (nAttr N : Nat) (st : GState) : GState :=
  if st.finished then st
  else if get_best_attribute_index (gtotOf N st) nAttr < 0 then
    { procs := st.procs, gUncov := st.gUncov, selected := st.selected,
      finished := true }
  else if st.gUncov -
      gtotOf N st (get_best_attribute_index (gtotOf N st) nAttr).toNat = 0 then
    { procs := st.procs
      gUncov := st.gUncov -
        gtotOf N st (get_best_attribute_index (gtotOf N st) nAttr).toNat
      selected := st.selected ++
        [(get_best_attribute_index (gtotOf N st) nAttr).toNat]
      finished := true }
  else
    { procs := fun r => procStep d nAttr N r (st.procs r)
        (get_best_attribute_index (gtotOf N st) nAttr).toNat
      gUncov := st.gUncov -
        gtotOf N st (get_best_attribute_index (gtotOf N st) nAttr).toNat
      selected := st.selected ++
        [(get_best_attribute_index (gtotOf N st) nAttr).toNat]
      finished := false }

/-- The whole run: `fuel` iterations of the loop from the initial
state (the loop freezes once finished, so any fuel at least the number
of selections gives the final state). -/
def runEngine (d : CoverData) (nAttr N : Nat) : Nat → GState
  | 0 => initGState d N
  | fuel + 1 => systemStep d nAttr N (runEngine d nAttr N fuel)

/-- A pair is discerned by the attribute history `hist` when some
selected attribute has its XOR bit set for the pair. -/
def discerned (d : CoverData) (hist : List Nat) (p : Nat × Nat × Nat × Nat) : Bool :=
  hist.any (fun b => xorAttrBit d p b)

/-- The reference totals of the sequential specification: among the
first `P` canonical pairs, those not yet discerned by the history and
with the XOR bit of attribute `a` set. -/
def refTotals (d : CoverData) (P : Nat) (hist : List Nat) (a : Nat) : Nat :=
  ((allPairs d.nClasses d.nopc).take P).countP
    (fun p => !discerned d hist p && xorAttrBit d p a)

/-- One iteration of the sequential reference: state is the selection
history, the global uncovered counter and the finished flag. -/
def refStep (d : CoverData) (nAttr P : Nat) (st : List Nat × Nat × Bool) :
    List Nat × Nat × Bool :=
  if st.2.2 then st
  else if get_best_attribute_index (refTotals d P st.1) nAttr < 0 then
    (st.1, st.2.1, true)
  else
    (st.1 ++ [(get_best_attribute_index (refTotals d P st.1) nAttr).toNat],
     st.2.1 - refTotals d P st.1
       (get_best_attribute_index (refTotals d P st.1) nAttr).toNat,
     if st.2.1 - refTotals d P st.1
         (get_best_attribute_index (refTotals d P st.1) nAttr).toNat = 0
       then true else false)

/-- The sequential reference run. -/
def refRun (d : CoverData) (nAttr P : Nat) : Nat → List Nat × Nat × Bool
  | 0 => ([], P, false)
  | fuel + 1 => refStep d nAttr P (refRun d nAttr P fuel)

/-- The per-process invariant tying the state of rank `r` to the
selection history: below `n_attributes` the totals count the
undiscerned window pairs with the attribute bit set, the uncovered
counter counts the undiscerned window pairs, and the covered bits
agree with discernment -- except that a process whose counter reached
zero leaves its covered bits stale (the early continue of main). -/
def PInv (d : CoverData) (nAttr N r : Nat) (ps : PState) (hist : List Nat) : Prop :=
  (∀ a, a < nAttr → ps.totals a =
    (rankWindow d N r).countP (fun p => !discerned d hist p && xorAttrBit d p a)) ∧
  ps.nUncov = (rankWindow d N r).countP (fun p => !discerned d hist p) ∧
  ((∀ kp ∈ (rankWindow d N r).enum, ps.covered kp.1 = discerned d hist kp.2) ∨
    ps.nUncov = 0)

theorem countP_congr_mem {α : Type} (l : List α) (p q : α → Bool)
    (h : ∀ x ∈ l, p x = q x) : l.countP p = l.countP q := by
  induction l with
  | nil => rfl
  | cons x l ih =>
    rw [List.countP_cons, List.countP_cons, h x (by simp),
      ih (fun y hy => h y (by simp [hy]))]

theorem countP_enumFrom_snd {α : Type} (l : List α) (f : α → Bool) :
    ∀ n, (List.enumFrom n l).countP (fun kp => f kp.2) = l.countP f := by
  induction l with
  | nil => intro n; rfl
  | cons x l ih =>
    intro n
    rw [List.enumFrom_cons, List.countP_cons, List.countP_cons, ih]

theorem countP_enum_snd {α : Type} (l : List α) (f : α → Bool) :
    l.enum.countP (fun kp => f kp.2) = l.countP f :=
  countP_enumFrom_snd l f 0

theorem countP_flatMap {α β : Type} (l : List α) (f : α → List β) (p : β → Bool) :
    (l.flatMap f).countP p = (l.map (fun x => (f x).countP p)).sum := by
  induction l with
  | nil => rfl
  | cons x l ih =>
    rw [List.flatMap_cons, List.countP_append, List.map_cons, List.sum_cons, ih]

theorem foldl_mod_lt (f : Nat → Nat) (l : List Nat) :
    ∀ acc, acc < 2 ^ 64 →
      l.foldl (fun n x => (n + f x % 2 ^ 64) % 2 ^ 64) acc < 2 ^ 64 := by
  induction l with
  | nil => intro acc h; simpa using h
  | cons x l ih =>
    intro acc h
    rw [List.foldl_cons]
    exact ih _ (Nat.mod_lt _ (by norm_num))

/-- The uint64 accumulator of `get_dm_n_lines` is always below
`2 ^ 64`. -/
theorem get_dm_n_lines_lt (nc : Nat) (count : Nat → Nat) :
    get_dm_n_lines nc count < 2 ^ 64 := by
  rw [get_dm_n_lines]
  have houter : ∀ (l : List Nat) (acc : Nat), acc < 2 ^ 64 →
      l.foldl (fun n a => (List.range' (a + 1) (nc - (a + 1))).foldl
        (fun n b => (n + count a * count b % 2 ^ 64) % 2 ^ 64) n) acc < 2 ^ 64 := by
    intro l
    induction l with
    | nil => intro acc h; simpa using h
    | cons a l ih =>
      intro acc h
      rw [List.foldl_cons]
      exact ih _ (foldl_mod_lt (fun b => count a * count b) _ acc h)
  exact houter _ 0 (by norm_num)

theorem discerned_nil (d : CoverData) (p : Nat × Nat × Nat × Nat) :
    discerned d [] p = false := rfl

theorem discerned_append (d : CoverData) (hist : List Nat) (b : Nat)
    (p : Nat × Nat × Nat × Nat) :
    discerned d (hist ++ [b]) p = (discerned d hist p || xorAttrBit d p b) := by
  rw [discerned, discerned, List.any_append]
  simp

theorem windowPairs_rank (d : CoverData) (N r : Nat) :
    windowPairs d (rankOff d N r) (rankSize d N r) = rankWindow d N r := by
  rw [rankOff, rankWindow, windowPairs_eq_windowSpec]

theorem BLOCK_LOW_mono (N P r s : Nat) (h : r ≤ s) :
    BLOCK_LOW r N P ≤ BLOCK_LOW s N P := by
  rw [BLOCK_LOW, BLOCK_LOW]
  exact Nat.div_le_div_right (Nat.mul_le_mul_right P h)

theorem BLOCK_LOW_last (N P : Nat) (hN : 0 < N) : BLOCK_LOW N N P = P := by
  rw [BLOCK_LOW]
  exact Nat.mul_div_cancel_left P hN

theorem engineP_le_length (d : CoverData) :
    engineP d ≤ (allPairs d.nClasses d.nopc).length := by
  rw [engineP, allPairs_length]
  exact get_dm_n_lines_le _ _

theorem rankWindow_length (d : CoverData) (N r : Nat) (hN : 0 < N) (hr : r < N) :
    (rankWindow d N r).length = rankSize d N r := by
  rw [rankWindow, windowSpec, rankSize, BLOCK_SIZE]
  rw [List.length_take, List.length_drop]
  have h1 : BLOCK_LOW (r + 1) N (engineP d) ≤ (allPairs d.nClasses d.nopc).length := by
    calc BLOCK_LOW (r + 1) N (engineP d) ≤ BLOCK_LOW N N (engineP d) :=
          BLOCK_LOW_mono N (engineP d) (r + 1) N (by omega)
      _ = engineP d := BLOCK_LOW_last N (engineP d) hN
      _ ≤ _ := engineP_le_length d
  have h2 : BLOCK_LOW r N (engineP d) ≤ BLOCK_LOW (r + 1) N (engineP d) :=
    BLOCK_LOW_mono N (engineP d) r (r + 1) (by omega)
  omega

/-- The rank windows partition the first `P` canonical pairs, so any
count over the reference list is the sum of the per-rank counts. -/
theorem countP_rank_partition (d : CoverData) (N : Nat) (hN : 0 < N)
    (f : Nat × Nat × Nat × Nat → Bool) :
    ∑ r ∈ Finset.range N, (rankWindow d N r).countP f =
      ((allPairs d.nClasses d.nopc).take (engineP d)).countP f := by
  have hflat := flatMap_blocks (allPairs d.nClasses d.nopc)
    (fun r => BLOCK_LOW r N (engineP d))
    (fun r => BLOCK_LOW_mono N (engineP d) r (r + 1) (by omega))
    (by simp [BLOCK_LOW]) N
  rw [BLOCK_LOW_last N (engineP d) hN] at hflat
  have hwin : (List.range N).flatMap (fun r => rankWindow d N r) =
      (allPairs d.nClasses d.nopc).take (engineP d) := by
    rw [← hflat]
    apply List.flatMap_congr
    intro r _
    rw [rankWindow, windowSpec, rankSize, BLOCK_SIZE]
  rw [← hwin, countP_flatMap, list_range_map_sum]

theorem gbaiGo_congr (t t2 : Nat → Nat) (fuel : Nat) :
    ∀ i mt ma, (∀ j, i ≤ j → j < i + fuel → t j = t2 j) →
      gbaiGo t i fuel mt ma = gbaiGo t2 i fuel mt ma := by
  induction fuel with
  | zero => intro i mt ma _; rfl
  | succ fuel ih =>
    intro i mt ma h
    have hi := h i (le_refl i) (by omega)
    rw [gbaiGo, gbaiGo, hi]
    by_cases hc : t2 i > mt
    · rw [if_pos hc, if_pos hc]
      exact ih (i + 1) (t2 i) i (fun j h1 h2 => h j (by omega) (by omega))
    · rw [if_neg hc, if_neg hc]
      exact ih (i + 1) mt ma (fun j h1 h2 => h j (by omega) (by omega))

theorem get_best_congr (t t2 : Nat → Nat) (n : Nat) (h : ∀ j, j < n → t j = t2 j) :
    get_best_attribute_index t n = get_best_attribute_index t2 n := by
  rw [get_best_attribute_index, get_best_attribute_index,
    gbaiGo_congr t t2 n 0 0 (-1) (fun j h1 h2 => h j (by omega))]

theorem get_best_cases (t : Nat → Nat) (n : Nat) :
    get_best_attribute_index t n = -1 ∨
      ∃ j, j < n ∧ get_best_attribute_index t n = (j : Int) ∧ 0 < t j := by
  by_cases hex : ∃ j, j < n ∧ 0 < t j
  · right
    rcases gbaiGo_max t n 0 0 (-1)
        (by rcases hex with ⟨j, h1, h2⟩; exact ⟨j, by omega, by omega, h2⟩) with
      ⟨j0, hj1, hj2, heq, hgt, _, _⟩
    refine ⟨j0, by omega, ?_, hgt⟩
    rw [get_best_attribute_index, heq]
  · left
    push_neg at hex
    rw [get_best_attribute_index, gbaiGo_const t n 0 0 (-1)
      (fun j h1 h2 => hex j (by omega))]

theorem init_totals_countP (d : CoverData) (off : Nat × Nat × Nat × Nat)
    (s a : Nat) :
    calculate_initial_attribute_totals d off s a =
      (windowPairs d off s).countP (fun p => xorAttrBit d p a) := by
  rw [calculate_initial_attribute_totals, countP_eq_sum_map]
  congr 1

theorem add_totals_countP (d : CoverData) (off : Nat × Nat × Nat × Nat)
    (s : Nat) (covered : Nat → Bool) (a : Nat) :
    calculate_attribute_totals_add d off s covered a =
      (windowPairs d off s).enum.countP
        (fun kp => !covered kp.1 && xorAttrBit d kp.2 a) := by
  rw [calculate_attribute_totals_add, countP_eq_sum_map]
  congr 1
  apply List.map_congr_left
  intro kp _
  by_cases hc : covered kp.1
  · simp [hc, bitCheck, xorAttrBit]
  · simp [hc, bitCheck, xorAttrBit]

theorem subCount_countP (d : CoverData) (off : Nat × Nat × Nat × Nat)
    (s : Nat) (mask : Nat → Bool) (a : Nat) :
    subCount d off s mask a =
      (windowPairs d off s).enum.countP
        (fun kp => mask kp.1 && xorAttrBit d kp.2 a) := by
  rw [subCount, countP_eq_sum_map]
  congr 1
  apply List.map_congr_left
  intro kp _
  by_cases hc : mask kp.1
  · simp [hc, bitCheck, xorAttrBit]
  · simp [hc, bitCheck, xorAttrBit]

theorem rankCol_mem (d : CoverData) (N r b : Nat)
    (kp : Nat × (Nat × Nat × Nat × Nat)) (h : kp ∈ (rankWindow d N r).enum) :
    rankCol d N r b kp.1 = xorAttrBit d kp.2 b := by
  have hget : (rankWindow d N r)[kp.1]? = some kp.2 :=
    List.mem_enum_iff_getElem?.mp h
  rw [rankCol, get_column, windowPairs_rank, hget]

theorem rankSize_lt (d : CoverData) (N r : Nat) (hN : 0 < N) (hr : r < N) :
    rankSize d N r < 2 ^ 64 := by
  rw [rankSize]
  have h1 := BLOCK_SIZE_le r N (engineP d) hN hr
  have h2 : engineP d < 2 ^ 64 := get_dm_n_lines_lt _ _
  omega

theorem PInv_init (d : CoverData) (nAttr N r : Nat) (hN : 0 < N) (hr : r < N) :
    PInv d nAttr N r (initPState d N r) [] := by
  refine ⟨?_, ?_, Or.inl ?_⟩
  · intro a ha
    show calculate_initial_attribute_totals d (rankOff d N r) (rankSize d N r) a = _
    rw [init_totals_countP, windowPairs_rank]
    apply countP_congr_mem
    intro p _
    rw [discerned_nil]
    simp
  · show rankSize d N r = _
    have h1 : (rankWindow d N r).countP (fun p => !discerned d [] p) =
        (rankWindow d N r).length :=
      List.countP_eq_length.mpr (fun p _ => by rw [discerned_nil]; rfl)
    rw [h1, rankWindow_length d N r hN hr]
  · intro kp _
    show false = discerned d [] kp.2
    rw [discerned_nil]

/-- One process body preserves the per-process invariant when the
broadcast attribute is a valid index: the history grows by that
attribute. -/
theorem PInv_step (d : CoverData) (nAttr N r : Nat) (hN : 0 < N) (hr : r < N)
    (ps : PState) (hist : List Nat) (b : Nat) (hb : b < nAttr)
    (hinv : PInv d nAttr N r ps hist) :
    PInv d nAttr N r (procStep d nAttr N r ps b) (hist ++ [b]) := by
  obtain ⟨htot, hunc, hcov⟩ := hinv
  have hsplit : (rankWindow d N r).countP (fun p => !discerned d hist p) =
      (rankWindow d N r).countP (fun p => !discerned d hist p && xorAttrBit d p b) +
      (rankWindow d N r).countP (fun p => !discerned d hist p && !xorAttrBit d p b) :=
    countP_and_split _ _ (fun p => xorAttrBit d p b)
  have hh2 : ∀ p : Nat × Nat × Nat × Nat, (!discerned d (hist ++ [b]) p) =
      (!discerned d hist p && !xorAttrBit d p b) := by
    intro p
    rw [discerned_append]
    cases hdp : discerned d hist p <;> cases hbp : xorAttrBit d p b <;> simp
  have hcount2 : (rankWindow d N r).countP (fun p => !discerned d (hist ++ [b]) p) =
      (rankWindow d N r).countP
        (fun p => !discerned d hist p && !xorAttrBit d p b) :=
    countP_congr_mem _ _ _ (fun p _ => hh2 p)
  have hBle : ps.totals b ≤ ps.nUncov := by
    rw [hunc, htot b hb]
    apply countP_mono_imp
    intro p _ hp
    simp only [Bool.and_eq_true] at hp
    exact hp.1
  have hB : ps.nUncov - ps.totals b =
      (rankWindow d N r).countP (fun p => !discerned d (hist ++ [b]) p) := by
    rw [hcount2, hunc, htot b hb]
    omega
  have htotle : ∀ a, (rankWindow d N r).countP
        (fun p => !discerned d (hist ++ [b]) p && xorAttrBit d p a) ≤
      (rankWindow d N r).countP (fun p => !discerned d (hist ++ [b]) p) := by
    intro a
    apply countP_mono_imp
    intro p _ hp
    simp only [Bool.and_eq_true] at hp
    exact hp.1
  rw [procStep]
  by_cases h0 : ps.nUncov - ps.totals b = 0
  · rw [if_pos h0]
    refine ⟨?_, ?_, Or.inr ?_⟩
    · intro a ha
      show (if a < nAttr then 0 else ps.totals a) = _
      rw [if_pos ha]
      have h1 := htotle a
      omega
    · show ps.nUncov - ps.totals b = _
      exact hB
    · show ps.nUncov - ps.totals b = 0
      exact h0
  · rw [if_neg h0]
    have hcov2 : ∀ kp ∈ (rankWindow d N r).enum,
        ps.covered kp.1 = discerned d hist kp.2 := by
      rcases hcov with h | h
      · exact h
      · exact absurd h (by omega)
    by_cases hadd : ps.nUncov - ps.totals b < ps.totals b
    · rw [if_pos hadd]
      have hcovchar : ∀ kp ∈ (rankWindow d N r).enum,
          update_covered_lines (rankCol d N r b) ps.covered kp.1 =
            discerned d (hist ++ [b]) kp.2 := by
        intro kp hkp
        show (ps.covered kp.1 || rankCol d N r b kp.1) = _
        rw [hcov2 kp hkp, rankCol_mem d N r b kp hkp, discerned_append]
      refine ⟨?_, ?_, Or.inl hcovchar⟩
      · intro a ha
        show calculate_attribute_totals_add d (rankOff d N r) (rankSize d N r)
          (update_covered_lines (rankCol d N r b) ps.covered) a = _
        rw [add_totals_countP, windowPairs_rank,
          ← countP_enum_snd (rankWindow d N r)
            (fun p => !discerned d (hist ++ [b]) p && xorAttrBit d p a)]
        apply countP_congr_mem
        intro kp hkp
        rw [hcovchar kp hkp]
      · show ps.nUncov - ps.totals b = _
        exact hB
    · rw [if_neg hadd]
      have hmaskchar : ∀ kp ∈ (rankWindow d N r).enum,
          (rankCol d N r b kp.1 && !ps.covered kp.1) =
            (xorAttrBit d kp.2 b && !discerned d hist kp.2) := by
        intro kp hkp
        rw [hcov2 kp hkp, rankCol_mem d N r b kp hkp]
      have hcovchar : ∀ kp ∈ (rankWindow d N r).enum,
          update_covered_lines
              (fun k => rankCol d N r b k && !ps.covered k) ps.covered kp.1 =
            discerned d (hist ++ [b]) kp.2 := by
        intro kp hkp
        show (ps.covered kp.1 || (rankCol d N r b kp.1 && !ps.covered kp.1)) = _
        rw [hcov2 kp hkp, rankCol_mem d N r b kp hkp, discerned_append]
        cases discerned d hist kp.2 <;> cases xorAttrBit d kp.2 b <;> simp
      refine ⟨?_, ?_, Or.inl hcovchar⟩
      · intro a ha
        show (calculate_attribute_totals_sub d (rankOff d N r) (rankSize d N r)
          (fun k => rankCol d N r b k && !ps.covered k) ps.totals a).toNat = _
        rw [calculate_attribute_totals_sub]
        have hsubc : subCount d (rankOff d N r) (rankSize d N r)
            (fun k => rankCol d N r b k && !ps.covered k) a =
            (rankWindow d N r).countP
              (fun p => (!discerned d hist p && xorAttrBit d p a) &&
                xorAttrBit d p b) := by
          rw [subCount_countP, windowPairs_rank,
            ← countP_enum_snd (rankWindow d N r)
              (fun p => (!discerned d hist p && xorAttrBit d p a) &&
                xorAttrBit d p b)]
          apply countP_congr_mem
          intro kp hkp
          rw [hmaskchar kp hkp]
          cases discerned d hist kp.2 <;> cases xorAttrBit d kp.2 a <;>
            cases xorAttrBit d kp.2 b <;> simp
        have hsplita : (rankWindow d N r).countP
              (fun p => !discerned d hist p && xorAttrBit d p a) =
            (rankWindow d N r).countP
              (fun p => (!discerned d hist p && xorAttrBit d p a) &&
                xorAttrBit d p b) +
            (rankWindow d N r).countP
              (fun p => (!discerned d hist p && xorAttrBit d p a) &&
                !xorAttrBit d p b) :=
          countP_and_split _ _ (fun p => xorAttrBit d p b)
        have hswap : (rankWindow d N r).countP
              (fun p => (!discerned d hist p && xorAttrBit d p a) &&
                !xorAttrBit d p b) =
            (rankWindow d N r).countP
              (fun p => !discerned d (hist ++ [b]) p && xorAttrBit d p a) := by
          apply countP_congr_mem
          intro p _
          rw [hh2 p]
          cases discerned d hist p <;> cases xorAttrBit d p a <;>
            cases xorAttrBit d p b <;> simp
        have hlt : ps.totals a < 2 ^ 64 := by
          rw [htot a ha]
          have h1 := List.countP_le_length
            (fun p => !discerned d hist p && xorAttrBit d p a) (l := rankWindow d N r)
          have h2 := rankWindow_length d N r hN hr
          have h3 := rankSize_lt d N r hN hr
          omega
        have hval : (ps.totals a : Int) -
            (subCount d (rankOff d N r) (rankSize d N r)
              (fun k => rankCol d N r b k && !ps.covered k) a : Int) =
            ((rankWindow d N r).countP
              (fun p => !discerned d (hist ++ [b]) p && xorAttrBit d p a) : Int) := by
          rw [hsubc, htot a ha]
          rw [hsplita, hswap]
          push_cast
          omega
        rw [hval]
        have hlt2 : ((rankWindow d N r).countP
            (fun p => !discerned d (hist ++ [b]) p && xorAttrBit d p a)) < 2 ^ 64 := by
          have h1 := List.countP_le_length
            (fun p => !discerned d (hist ++ [b]) p && xorAttrBit d p a)
            (l := rankWindow d N r)
          have h2 := rankWindow_length d N r hN hr
          have h3 := rankSize_lt d N r hN hr
          omega
        rw [Int.emod_eq_of_lt (by positivity) (by exact_mod_cast hlt2)]
        exact Int.toNat_natCast _
      · show ps.nUncov - ps.totals b = _
        exact hB

/-- Simulation: the run with `N` processes agrees with the sequential
reference on the selection history, the global uncovered counter and
the finished flag, and while running every process satisfies the
per-process invariant. -/
theorem engine_sim (d : CoverData) (nAttr N : Nat) (hN : 0 < N) :
    ∀ fuel,
      (runEngine d nAttr N fuel).selected = (refRun d nAttr (engineP d) fuel).1 ∧
      (runEngine d nAttr N fuel).gUncov = (refRun d nAttr (engineP d) fuel).2.1 ∧
      (runEngine d nAttr N fuel).finished = (refRun d nAttr (engineP d) fuel).2.2 ∧
      ((refRun d nAttr (engineP d) fuel).2.2 = false →
        ∀ r, r < N → PInv d nAttr N r ((runEngine d nAttr N fuel).procs r)
          (refRun d nAttr (engineP d) fuel).1) := by
  intro fuel
  induction fuel with
  | zero =>
    exact ⟨rfl, rfl, rfl, fun _ r hr => PInv_init d nAttr N r hN hr⟩
  | succ fuel ih =>
    obtain ⟨hsel, hg, hfin, hPInv⟩ := ih
    rw [runEngine, refRun]
    by_cases hf : (refRun d nAttr (engineP d) fuel).2.2 = true
    · have h1 : (runEngine d nAttr N fuel).finished = true := by rw [hfin, hf]
      rw [systemStep, if_pos h1, refStep, if_pos hf]
      exact ⟨hsel, hg, hfin, hPInv⟩
    · have hf2 : (refRun d nAttr (engineP d) fuel).2.2 = false := by
        revert hf
        cases (refRun d nAttr (engineP d) fuel).2.2 <;> simp
      have h1 : (runEngine d nAttr N fuel).finished = false := by rw [hfin, hf2]
      have hP := hPInv hf2
      have hgtot : ∀ a, a < nAttr →
          gtotOf N (runEngine d nAttr N fuel) a =
            refTotals d (engineP d) (refRun d nAttr (engineP d) fuel).1 a := by
        intro a ha
        rw [gtotOf, refTotals,
          ← countP_rank_partition d N hN
            (fun p => !discerned d (refRun d nAttr (engineP d) fuel).1 p &&
              xorAttrBit d p a)]
        apply Finset.sum_congr rfl
        intro r hrr
        exact (hP r (Finset.mem_range.mp hrr)).1 a ha
      have hbest : get_best_attribute_index
            (gtotOf N (runEngine d nAttr N fuel)) nAttr =
          get_best_attribute_index
            (refTotals d (engineP d) (refRun d nAttr (engineP d) fuel).1) nAttr :=
        get_best_congr _ _ nAttr hgtot
      rw [systemStep, if_neg (by simp [h1]), refStep, if_neg hf]
      rcases get_best_cases
          (refTotals d (engineP d) (refRun d nAttr (engineP d) fuel).1) nAttr with
        hneg | ⟨j, hj, hjeq, hjpos⟩
      · rw [hbest, hneg]
        rw [if_pos (show (-1 : Int) < 0 by norm_num),
          if_pos (show (-1 : Int) < 0 by norm_num)]
        exact ⟨hsel, hg, rfl, fun hc => absurd hc (by simp)⟩
      · have hjlt : ¬(get_best_attribute_index
            (refTotals d (engineP d) (refRun d nAttr (engineP d) fuel).1) nAttr < 0) := by
          rw [hjeq]
          exact not_lt.mpr (by positivity)
        rw [hbest, if_neg hjlt, if_neg hjlt]
        have htn : (get_best_attribute_index
            (refTotals d (engineP d) (refRun d nAttr (engineP d) fuel).1) nAttr).toNat =
            j := by
          rw [hjeq]
          exact Int.toNat_natCast j
        rw [htn, hg, hgtot j hj]
        by_cases hg2 : (refRun d nAttr (engineP d) fuel).2.1 -
            refTotals d (engineP d) (refRun d nAttr (engineP d) fuel).1 j = 0
        · rw [if_pos hg2, if_pos hg2]
          refine ⟨?_, rfl, rfl, fun hc => absurd hc (by simp)⟩
          show (runEngine d nAttr N fuel).selected ++ [j] =
            (refRun d nAttr (engineP d) fuel).1 ++ [j]
          rw [hsel]
        · rw [if_neg hg2, if_neg hg2]
          refine ⟨?_, rfl, rfl, ?_⟩
          · show (runEngine d nAttr N fuel).selected ++ [j] =
              (refRun d nAttr (engineP d) fuel).1 ++ [j]
            rw [hsel]
          · intro _ r hr
            exact PInv_step d nAttr N r hN hr _ _ j hj (hP r hr)

/-- CLAIM C3. Process-count independence: for any process count, the
distributed cover loop (block partition of the disjoint-matrix lines,
per-process totals, MPI reduce, root selection and broadcast, local
add, sub or early-continue updates) selects the same attributes in the
same order, finishes in the same iteration and leaves the same global
uncovered counter as the single-process run. -/
theorem claim_C3_process_count_independence (d : CoverData) (nAttr N fuel : Nat)
    (hN : 0 < N) :
    (runEngine d nAttr N fuel).selected = (runEngine d nAttr 1 fuel).selected ∧
    (runEngine d nAttr N fuel).finished = (runEngine d nAttr 1 fuel).finished ∧
    (runEngine d nAttr N fuel).gUncov = (runEngine d nAttr 1 fuel).gUncov := by
  have hN2 := engine_sim d nAttr N hN fuel
  have h1 := engine_sim d nAttr 1 (by omega) fuel
  refine ⟨?_, ?_, ?_⟩
  · rw [hN2.1, h1.1]
  · rw [hN2.2.2.1, h1.2.2.1]
  · rw [hN2.2.1, h1.2.1]

/-- Witness for C3: three iterations with two processes versus one on
the two-class one-observation dataset. -/
theorem claim_C3_process_count_independence_witness :
    0 < 2 ∧
    ((runEngine ⟨1, 2, fun _ => 1, fun c _ _ => c⟩ 64 2 3).selected =
        (runEngine ⟨1, 2, fun _ => 1, fun c _ _ => c⟩ 64 1 3).selected ∧
      (runEngine ⟨1, 2, fun _ => 1, fun c _ _ => c⟩ 64 2 3).finished =
        (runEngine ⟨1, 2, fun _ => 1, fun c _ _ => c⟩ 64 1 3).finished ∧
      (runEngine ⟨1, 2, fun _ => 1, fun c _ _ => c⟩ 64 2 3).gUncov =
        (runEngine ⟨1, 2, fun _ => 1, fun c _ _ => c⟩ 64 1 3).gUncov) :=
  ⟨by decide,
    claim_C3_process_count_independence ⟨1, 2, fun _ => 1, fun c _ _ => c⟩ 64 2 3
      (by decide)⟩
